import Mathlib

/-!
# tackle2-hub, `api/proxy.go`: the proxy resource

A shallow embedding of the proxy REST resource (`api.Proxy`), its two
conversions `Proxy.With` (storage record to wire resource) and `Proxy.Model`
(wire resource to storage record), and the handlers `Get`, `Create`, `Delete`
and `Update` of `ProxyHandler`.

Conventions.

* A Go `string` and a Go `[]byte` are sequences of bytes.  A byte is a natural
  number below 256; text constants are written with `str`.
* A Go slice that may be `nil` is an `Option (List _)`: `none` is the nil slice,
  `some []` the empty non-nil slice.
* A Go pointer that may be `nil` is an `Option`.
* `encoding/json` and `unicode/utf8` are Go standard library packages.  They are
  embedded here as far as `[]string` values need them, following the library's
  documented behaviour.  Bit operations on bytes are written arithmetically:
  `x & 0x3F` is `x % 64`, `x >> 6` is `x / 64`, `x << 6` is `x * 64`, and an `|`
  of values with disjoint bits is `+`.
-/

/-- A Go string: its bytes. -/
abbrev GoString := List Nat

/-- The bytes of an ASCII text constant. -/
def str (s : String) : GoString := s.toList.map Char.toNat

/-! ## unicode/utf8 -/

namespace utf8

/-- The replacement rune U+FFFD. -/
def RuneError : Nat := 0xFFFD

/-- Bytes below `RuneSelf` are single-byte runes. -/
def RuneSelf : Nat := 0x80

/-- The largest Unicode code point. -/
def MaxRune : Nat := 0x10FFFF

/-- The table `first` together with `acceptRanges`: for a leading byte of a
multi-byte sequence, the sequence length and the range accepted for the second
byte; `none` for a byte that cannot start a multi-byte sequence. -/
def first (p0 : Nat) : Option (Nat × Nat × Nat) :=
  if p0 < 0xC2 then none
  else if p0 ≤ 0xDF then some (2, 0x80, 0xBF)
  else if p0 = 0xE0 then some (3, 0xA0, 0xBF)
  else if p0 ≤ 0xEC then some (3, 0x80, 0xBF)
  else if p0 = 0xED then some (3, 0x80, 0x9F)
  else if p0 ≤ 0xEF then some (3, 0x80, 0xBF)
  else if p0 = 0xF0 then some (4, 0x90, 0xBF)
  else if p0 ≤ 0xF3 then some (4, 0x80, 0xBF)
  else if p0 = 0xF4 then some (4, 0x80, 0x8F)
  else none

/-- The function `utf8.DecodeRune`: the first rune of `p` and its width in
bytes.  An invalid or truncated encoding gives `(RuneError, 1)`, the empty input
`(RuneError, 0)`. -/
def DecodeRune : List Nat → Nat × Nat
  | [] => (RuneError, 0)
  | p0 :: t =>
    if p0 < RuneSelf then (p0, 1)
    else
      match first p0 with
      | none => (RuneError, 1)
      | some (sz, lo, hi) =>
        match t with
        | [] => (RuneError, 1)
        | b1 :: t1 =>
          if b1 < lo ∨ hi < b1 then (RuneError, 1)
          else if sz ≤ 2 then ((p0 % 32) * 64 + b1 % 64, 2)
          else
            match t1 with
            | [] => (RuneError, 1)
            | b2 :: t2 =>
              if b2 < 0x80 ∨ 0xBF < b2 then (RuneError, 1)
              else if sz ≤ 3 then ((p0 % 16) * 4096 + (b1 % 64) * 64 + b2 % 64, 3)
              else
                match t2 with
                | [] => (RuneError, 1)
                | b3 :: _ =>
                  if b3 < 0x80 ∨ 0xBF < b3 then (RuneError, 1)
                  else ((p0 % 8) * 262144 + (b1 % 64) * 4096 + (b2 % 64) * 64 + b3 % 64, 4)

/-- The function `utf8.EncodeRune`: the UTF-8 encoding of a rune; a surrogate or
a value above `MaxRune` is encoded as `RuneError`. -/
def EncodeRune (r : Nat) : List Nat :=
  if r ≤ 0x7F then [r]
  else if r ≤ 0x7FF then [0xC0 + r / 64, 0x80 + r % 64]
  else if MaxRune < r ∨ (0xD800 ≤ r ∧ r ≤ 0xDFFF) then [0xEF, 0xBF, 0xBD]
  else if r ≤ 0xFFFF then [0xE0 + r / 4096, 0x80 + (r / 64) % 64, 0x80 + r % 64]
  else [0xF0 + r / 262144, 0x80 + (r / 4096) % 64, 0x80 + (r / 64) % 64, 0x80 + r % 64]

/-- The loop of `utf8.ValidString`, over at most `fuel` runes. -/
def validLoop : Nat → List Nat → Bool
  | _, [] => true
  | 0, _ :: _ => false
  | fuel + 1, b :: rest =>
    if b < RuneSelf then validLoop fuel rest
    else
      let d := DecodeRune (b :: rest)
      if d.1 = RuneError ∧ d.2 = 1 then false
      else validLoop fuel ((b :: rest).drop d.2)

/-- The function `utf8.ValidString`: `s` consists of valid UTF-8 encodings
only. -/
def ValidString (s : GoString) : Bool := validLoop s.length s

end utf8

/-! ## encoding/json: encoding a `[]string` -/

namespace json

/-- The digit table `hex = "0123456789abcdef"`. -/
def hex (d : Nat) : Nat := if d < 10 then 0x30 + d else 0x61 + (d - 10)

/-- The table `htmlSafeSet`: the ASCII bytes written without escaping when HTML
escaping is on (as it is in `json.Marshal`): all of 0x20..0x7F except the
double quote, `&`, `<`, `>` and the backslash. -/
def htmlSafeSet (b : Nat) : Bool :=
  decide (0x20 ≤ b ∧ b < 0x80 ∧ b ≠ 0x22 ∧ b ≠ 0x26 ∧ b ≠ 0x3C ∧ b ≠ 0x3E ∧ b ≠ 0x5C)

/-- The escape written for an ASCII byte that is not in `htmlSafeSet`, as
`appendString` writes it from Go 1.22 on: two bytes for the backslash, the
double quote, backspace, form feed, line feed, carriage return and tab, six
bytes for every other byte.  (Older versions write the six-byte form for 0x08
and 0x0C; both forms decode to the same byte.) -/
def escapeByte (b : Nat) : List Nat :=
  if b = 0x5C ∨ b = 0x22 then [0x5C, b]
  else if b = 0x08 then [0x5C, 0x62]
  else if b = 0x0C then [0x5C, 0x66]
  else if b = 0x0A then [0x5C, 0x6E]
  else if b = 0x0D then [0x5C, 0x72]
  else if b = 0x09 then [0x5C, 0x74]
  else [0x5C, 0x75, 0x30, 0x30, hex (b / 16), hex (b % 16)]

/-- The loop of `encodeState.string` with HTML escaping: the text between the
quotes, over at most `fuel` runes.  An invalid byte is written as the escape
of U+FFFD; U+2028 and U+2029 are always escaped. -/
def encodeStringLoop : Nat → List Nat → List Nat
  | _, [] => []
  | 0, _ :: _ => []
  | fuel + 1, b :: rest =>
    if b < utf8.RuneSelf then
      if htmlSafeSet b then b :: encodeStringLoop fuel rest
      else escapeByte b ++ encodeStringLoop fuel rest
    else
      let d := utf8.DecodeRune (b :: rest)
      if d.1 = utf8.RuneError ∧ d.2 = 1 then
        [0x5C, 0x75, 0x66, 0x66, 0x66, 0x64] ++ encodeStringLoop fuel rest
      else if d.1 = 0x2028 ∨ d.1 = 0x2029 then
        [0x5C, 0x75, 0x32, 0x30, 0x32, hex (d.1 % 16)]
          ++ encodeStringLoop fuel ((b :: rest).drop d.2)
      else
        (b :: rest).take d.2 ++ encodeStringLoop fuel ((b :: rest).drop d.2)

/-- The method `encodeState.string`: a Go string as a JSON string literal. -/
def encodeString (s : GoString) : List Nat :=
  0x22 :: (encodeStringLoop s.length s ++ [0x22])

/-- The elements of an array, separated by commas. -/
def encodeElems : List GoString → List Nat
  | [] => []
  | [x] => encodeString x
  | x :: y :: rest => encodeString x ++ 0x2C :: encodeElems (y :: rest)

/-- The function `json.Marshal` at type `[]string`: `null` for the nil slice,
the bracketed elements otherwise.  At this type it never fails. -/
def Marshal (v : Option (List GoString)) : List Nat :=
  match v with
  | none => [0x6E, 0x75, 0x6C, 0x6C]
  | some xs => 0x5B :: (encodeElems xs ++ [0x5D])

/-- What the documentation of `json.Marshal` says of a string value: it is
coerced to valid UTF-8, each invalid byte replaced by the replacement rune
U+FFFD.  The loop, over at most `fuel` runes; written from that sentence,
independently of the encoder. -/
def coerceLoop : Nat → List Nat → List Nat
  | _, [] => []
  | 0, _ :: _ => []
  | fuel + 1, b :: rest =>
    if b < utf8.RuneSelf then b :: coerceLoop fuel rest
    else
      let d := utf8.DecodeRune (b :: rest)
      if d.1 = utf8.RuneError ∧ d.2 = 1 then [0xEF, 0xBF, 0xBD] ++ coerceLoop fuel rest
      else (b :: rest).take d.2 ++ coerceLoop fuel ((b :: rest).drop d.2)

/-- A string coerced to valid UTF-8. -/
def coerce (s : GoString) : GoString := coerceLoop s.length s

/-- The JSON text of an array of strings that need no escaping, written from
the JSON grammar and independently of the encoder: each string between double
quotes, the strings separated by commas, the whole between brackets. -/
def arrayText (xs : List GoString) : List Nat :=
  0x5B :: (List.intercalate [0x2C] (xs.map (fun x => 0x22 :: (x ++ [0x22]))) ++ [0x5D])

/-! ## encoding/json: decoding into a `[]string` -/

/-- A JSON value as the decoder sees it.  Numbers carry no payload: a number is
never stored in a `[]string`. -/
inductive JVal where
  | null : JVal
  | bool (b : Bool) : JVal
  | num : JVal
  | str (s : GoString) : JVal
  | arr (vs : List JVal) : JVal
  | obj (kvs : List (GoString × JVal)) : JVal

/-- The nesting bound of the scanner. -/
def maxNestingDepth : Nat := 10000

/-- The function `isSpace` of the scanner. -/
def isSpace (c : Nat) : Bool := decide (c = 0x20 ∨ c = 0x09 ∨ c = 0x0D ∨ c = 0x0A)

/-- Skip insignificant white space. -/
def skipSpace : List Nat → List Nat
  | [] => []
  | c :: rest => if isSpace c then skipSpace rest else c :: rest

/-- A decimal digit. -/
def isDigit (c : Nat) : Bool := decide (0x30 ≤ c ∧ c ≤ 0x39)

/-- The value of a hexadecimal digit, in either case. -/
def hexVal (c : Nat) : Option Nat :=
  if 0x30 ≤ c ∧ c ≤ 0x39 then some (c - 0x30)
  else if 0x61 ≤ c ∧ c ≤ 0x66 then some (c - 0x61 + 10)
  else if 0x41 ≤ c ∧ c ≤ 0x46 then some (c - 0x41 + 10)
  else none

/-- The function `getu4` on the four digits that follow a backslash and `u`. -/
def getu4 (a b c d : Nat) : Option Nat :=
  match hexVal a, hexVal b, hexVal c, hexVal d with
  | some x, some y, some z, some w => some (x * 4096 + y * 256 + z * 16 + w)
  | _, _, _, _ => none

/-- The function `utf16.DecodeRune`: the code point of a surrogate pair, or the
replacement rune when the two halves are not a pair. -/
def utf16DecodeRune (r1 r2 : Nat) : Nat :=
  if 0xD800 ≤ r1 ∧ r1 < 0xDC00 ∧ 0xDC00 ≤ r2 ∧ r2 < 0xE000 then
    (r1 - 0xD800) * 1024 + (r2 - 0xDC00) + 0x10000
  else utf8.RuneError

/-- The second half read after a surrogate escape: the value of a following
backslash-u escape, if there is one. -/
def getu4Next : List Nat → Option Nat
  | 0x5C :: 0x75 :: a :: b :: c :: d :: _ => getu4 a b c d
  | _ => none

/-- The single-character escapes of a string literal. -/
def unescape (e : Nat) : Option Nat :=
  if e = 0x22 ∨ e = 0x5C ∨ e = 0x2F then some e
  else if e = 0x62 then some 0x08
  else if e = 0x66 then some 0x0C
  else if e = 0x6E then some 0x0A
  else if e = 0x72 then some 0x0D
  else if e = 0x74 then some 0x09
  else none

/-- A string literal after its opening quote: the scanner states `stateInString`
and `stateInStringEsc*` together with `unquote`.  The result is the decoded
string and the input after the closing quote; `none` is a syntax error.  Bytes
that are not valid UTF-8 decode to the replacement rune. -/
def parseStringBody : Nat → List Nat → Option (GoString × List Nat)
  | 0, _ => none
  | _ + 1, [] => none
  | fuel + 1, c :: rest =>
    if c = 0x22 then some ([], rest)
    else if c = 0x5C then
      match rest with
      | [] => none
      | e :: rest1 =>
        if e = 0x75 then
          match rest1 with
          | a :: b :: c1 :: d :: rest2 =>
            match getu4 a b c1 d with
            | none => none
            | some rr =>
              if 0xD800 ≤ rr ∧ rr < 0xE000 then
                match getu4Next rest2 with
                | some rr1 =>
                  if utf16DecodeRune rr rr1 ≠ utf8.RuneError then
                    (parseStringBody fuel (rest2.drop 6)).map
                      (fun p => (utf8.EncodeRune (utf16DecodeRune rr rr1) ++ p.1, p.2))
                  else
                    (parseStringBody fuel rest2).map
                      (fun p => (utf8.EncodeRune utf8.RuneError ++ p.1, p.2))
                | none =>
                  (parseStringBody fuel rest2).map
                    (fun p => (utf8.EncodeRune utf8.RuneError ++ p.1, p.2))
              else
                (parseStringBody fuel rest2).map (fun p => (utf8.EncodeRune rr ++ p.1, p.2))
          | _ => none
        else
          match unescape e with
          | none => none
          | some b => (parseStringBody fuel rest1).map (fun p => (b :: p.1, p.2))
    else if c < 0x20 then none
    else if c < utf8.RuneSelf then
      (parseStringBody fuel rest).map (fun p => (c :: p.1, p.2))
    else
      let d := utf8.DecodeRune (c :: rest)
      (parseStringBody fuel ((c :: rest).drop d.2)).map
        (fun p => (utf8.EncodeRune d.1 ++ p.1, p.2))

/-- Skip a run of digits. -/
def skipDigits : List Nat → List Nat
  | [] => []
  | c :: rest => if isDigit c then skipDigits rest else c :: rest

/-- The exponent of a number, after `e` or `E`. -/
def scanExp (s : List Nat) : Option (List Nat) :=
  let s1 := match s with
    | c :: rest => if c = 0x2B ∨ c = 0x2D then rest else c :: rest
    | [] => []
  match s1 with
  | c :: rest => if isDigit c then some (skipDigits rest) else none
  | [] => none

/-- The optional exponent of a number. -/
def scanOptExp (s : List Nat) : Option (List Nat) :=
  match s with
  | c :: rest => if c = 0x65 ∨ c = 0x45 then scanExp rest else some (c :: rest)
  | [] => some []

/-- The optional fraction and exponent of a number, after its integer part. -/
def scanFracExp (s : List Nat) : Option (List Nat) :=
  match s with
  | c :: rest =>
    if c = 0x2E then
      match rest with
      | d :: rest1 => if isDigit d then scanOptExp (skipDigits rest1) else none
      | [] => none
    else scanOptExp (c :: rest)
  | [] => some []

/-- The integer part of a number, after an optional minus sign. -/
def scanInt (s : List Nat) : Option (List Nat) :=
  match s with
  | c :: rest =>
    if c = 0x30 then scanFracExp rest
    else if 0x31 ≤ c ∧ c ≤ 0x39 then scanFracExp (skipDigits rest)
    else none
  | [] => none

/-- The elements of a non-empty array, up to and including the closing
bracket.  `pv` reads one value. -/
def parseElems (pv : List Nat → Option (JVal × List Nat)) :
    Nat → List Nat → Option (List JVal × List Nat)
  | 0, _ => none
  | fuel + 1, s =>
    match pv s with
    | none => none
    | some (v, r) =>
      match skipSpace r with
      | [] => none
      | c :: r1 =>
        if c = 0x2C then
          (parseElems pv fuel (skipSpace r1)).map (fun p => (v :: p.1, p.2))
        else if c = 0x5D then some ([v], r1)
        else none

/-- The members of a non-empty object, up to and including the closing brace.
`pv` reads one value. -/
def parseMembers (pv : List Nat → Option (JVal × List Nat)) :
    Nat → List Nat → Option (List (GoString × JVal) × List Nat)
  | 0, _ => none
  | fuel + 1, s =>
    match s with
    | [] => none
    | q :: r =>
      if q = 0x22 then
        match parseStringBody r.length r with
        | none => none
        | some (k, r1) =>
          match skipSpace r1 with
          | [] => none
          | c :: r2 =>
            if c = 0x3A then
              match pv (skipSpace r2) with
              | none => none
              | some (v, r3) =>
                match skipSpace r3 with
                | [] => none
                | c1 :: r4 =>
                  if c1 = 0x2C then
                    (parseMembers pv fuel (skipSpace r4)).map (fun p => ((k, v) :: p.1, p.2))
                  else if c1 = 0x7D then some ([(k, v)], r4)
                  else none
            else none
      else none

/-- One JSON value at the head of the input (white space already skipped), at
nesting depth `depth`; the result is the value and the input after it.  `none`
is a syntax error, as the scanner reports it (`checkValid`). -/
def parseValue : Nat → Nat → List Nat → Option (JVal × List Nat)
  | 0, _, _ => none
  | _ + 1, _, [] => none
  | fuel + 1, depth, c :: rest =>
    if c = 0x5B then
      if maxNestingDepth < depth + 1 then none
      else
        match skipSpace rest with
        | [] => none
        | c1 :: r1 =>
          if c1 = 0x5D then some (JVal.arr [], r1)
          else
            (parseElems (parseValue fuel (depth + 1)) (c1 :: r1).length (c1 :: r1)).map
              (fun p => (JVal.arr p.1, p.2))
    else if c = 0x7B then
      if maxNestingDepth < depth + 1 then none
      else
        match skipSpace rest with
        | [] => none
        | c1 :: r1 =>
          if c1 = 0x7D then some (JVal.obj [], r1)
          else
            (parseMembers (parseValue fuel (depth + 1)) (c1 :: r1).length (c1 :: r1)).map
              (fun p => (JVal.obj p.1, p.2))
    else if c = 0x22 then
      (parseStringBody rest.length rest).map (fun p => (JVal.str p.1, p.2))
    else if c = 0x2D then (scanInt rest).map (fun r => (JVal.num, r))
    else if isDigit c then (scanInt (c :: rest)).map (fun r => (JVal.num, r))
    else if c = 0x74 then
      match rest with
      | 0x72 :: 0x75 :: 0x65 :: r => some (JVal.bool true, r)
      | _ => none
    else if c = 0x66 then
      match rest with
      | 0x61 :: 0x6C :: 0x73 :: 0x65 :: r => some (JVal.bool false, r)
      | _ => none
    else if c = 0x6E then
      match rest with
      | 0x75 :: 0x6C :: 0x6C :: r => some (JVal.null, r)
      | _ => none
    else none

/-- A whole JSON text: one value between optional white space.  `none` is a
syntax error (which includes the empty input). -/
def parse (data : List Nat) : Option JVal :=
  match parseValue (data.length + 1) 0 (skipSpace data) with
  | none => none
  | some (v, rest) => if skipSpace rest = [] then some v else none

/-- The error of `json.Unmarshal`. -/
inductive UnmarshalError where
  | SyntaxError : UnmarshalError
  | UnmarshalTypeError : UnmarshalError
deriving DecidableEq

/-- What decoding an array stores in a `[]string`: a JSON string is stored
decoded; `null` and a value of another type leave the element as it was, which
is the empty string for a newly made element. -/
def storeElems : List JVal → List GoString → List GoString
  | [], _ => []
  | v :: vs, old =>
    (match v with
      | JVal.str s => s
      | _ => old.headD []) :: storeElems vs old.tail

/-- An element that does not fit a Go string: anything but a string and
`null`. -/
def JVal.mismatch : JVal → Bool
  | JVal.str _ => false
  | JVal.null => false
  | _ => true

/-- A JSON value that is an array. -/
def JVal.isArr : JVal → Bool
  | JVal.arr _ => true
  | _ => false

/-- The function `json.Unmarshal(data, &v)` for `v` of type `[]string`: the new
value of `v` and the error returned.

* A syntax error leaves `v` as it was.
* `null` sets `v` to nil, without an error.
* An array sets `v` to a slice with one element for each array element; an
  empty array gives the empty non-nil slice.  An element that is not a string
  is skipped, the decoding goes on, and the earliest such mismatch is returned
  as an `UnmarshalTypeError`.
* Any other value leaves `v` as it was and returns an `UnmarshalTypeError`. -/
def Unmarshal (data : Option (List Nat)) (v : Option (List GoString)) :
    Option (List GoString) × Option UnmarshalError :=
  match parse (data.getD []) with
  | none => (v, some UnmarshalError.SyntaxError)
  | some JVal.null => (none, none)
  | some (JVal.arr vs) =>
    (some (storeElems vs (v.getD [])),
      if vs.any JVal.mismatch then some UnmarshalError.UnmarshalTypeError else none)
  | some _ => (v, some UnmarshalError.UnmarshalTypeError)

end json

/-! ## Package model: the storage records -/

namespace model

/-- Modelled from the spec: the base record `model.Model` that every storage
record embeds (its declaration is outside `api/proxy.go`): the primary key and
the audit fields that `proxy.go` reads and writes. -/
structure Model where
  ID : Nat
  CreateUser : GoString
  UpdateUser : GoString
deriving DecidableEq

/-- Modelled from the spec: the credential record `model.Identity` (declared
outside `api/proxy.go`), as far as a reference to it shows: id and name. -/
structure Identity where
  ID : Nat
  Name : GoString
deriving DecidableEq

/-- Modelled from the spec: the storage record `model.Proxy` (its declaration is
outside `api/proxy.go`), with the fields that `Proxy.With` and `Proxy.Model` use:
the embedded `Model`, the four scalar columns, the encoded blob `Excluded`, the
foreign key `IdentityID` and the loaded association `Identity`. -/
structure Proxy where
  Model : model.Model
  Enabled : Bool
  Kind : GoString
  Host : GoString
  Port : Int
  Excluded : Option (List Nat)
  IdentityID : Option Nat
  Identity : Option model.Identity
deriving DecidableEq

end model

/-! ## Package api: the resource and its two conversions -/

namespace api

/-- Modelled from the spec: the reference `Ref` (declared outside
`api/proxy.go`), the id and name of a referenced record. -/
structure Ref where
  ID : Nat
  Name : GoString
deriving DecidableEq

/-- Modelled from the spec: the base resource `Resource` (declared outside
`api/proxy.go`): id and audit fields. -/
structure Resource where
  ID : Nat
  CreateUser : GoString
  UpdateUser : GoString
deriving DecidableEq

/-- Modelled from the spec: the method `Resource.With` (outside
`api/proxy.go`) copies the id and the audit fields of the storage record. -/
def Resource.With (_r : Resource) (m : model.Model) : Resource :=
  { ID := m.ID, CreateUser := m.CreateUser, UpdateUser := m.UpdateUser }

/-- Modelled from the spec: the method `Resource.refPtr` (outside
`api/proxy.go`) projects the foreign key and the loaded association into a
reference, only when the foreign key is not nil. -/
def Resource.refPtr (id : Option Nat) (m : Option model.Identity) : Option Ref :=
  match id with
  | none => none
  | some i =>
    some { ID := i, Name := match m with
      | some x => x.Name
      | none => [] }

/-- Modelled from the spec: the method `Resource.idPtr` (outside
`api/proxy.go`) extracts the foreign key from a reference; a nil reference
gives a nil key. -/
def Resource.idPtr (ref : Option Ref) : Option Nat :=
  ref.map (fun x => x.ID)

/-- The REST resource `Proxy` (proxy.go, lines 175-183). -/
structure Proxy where
  Resource : api.Resource
  Enabled : Bool
  Kind : GoString
  Host : GoString
  Port : Int
  Excluded : Option (List GoString)
  Identity : Option Ref
deriving DecidableEq

/-- The zero value `Proxy{}`: a fresh resource. -/
def Proxy.zero : Proxy :=
  { Resource := { ID := 0, CreateUser := [], UpdateUser := [] }
    Enabled := false, Kind := [], Host := [], Port := 0
    Excluded := none, Identity := none }

/-- The method `Proxy.With` (proxy.go, lines 187-198): update the resource with
the storage record.  The error of `json.Unmarshal` is discarded; a nil
`Excluded` is replaced by the empty slice. -/
def Proxy.With (r : Proxy) (m : model.Proxy) : Proxy :=
  let excluded := (json.Unmarshal m.Excluded r.Excluded).1
  { Resource := r.Resource.With m.Model
    Enabled := m.Enabled
    Kind := m.Kind
    Host := m.Host
    Port := m.Port
    Identity := Resource.refPtr m.IdentityID m.Identity
    Excluded := match excluded with
      | none => some []
      | some xs => some xs }

/-- The method `Proxy.Model` (proxy.go, lines 202-216): build a storage
record.  The blob is written only when `Excluded` is not nil. -/
def Proxy.Model (r : Proxy) : model.Proxy :=
  { Model := { ID := r.Resource.ID, CreateUser := [], UpdateUser := [] }
    Enabled := r.Enabled
    Kind := r.Kind
    Host := r.Host
    Port := r.Port
    IdentityID := Resource.idPtr r.Identity
    Identity := none
    Excluded := match r.Excluded with
      | none => none
      | some xs => some (json.Marshal (some xs)) }

/-- The binding tag of `Proxy.Kind` (proxy.go, line 178): `oneof=http https`. -/
def Proxy.kindAllowed (r : Proxy) : Bool :=
  decide (r.Kind = str "http" ∨ r.Kind = str "https")

/-! ## The handlers -/

/-- The errors a handler reports, by the taxonomy of the spec. -/
inductive Error where
  | Validation : Error
  | NotFound : Error
  | Storage : Error
deriving DecidableEq

/-- What a handler renders: one resource or a list. -/
inductive Rendered where
  | one (r : Proxy) : Rendered
  | many (rs : List Proxy) : Rendered
deriving DecidableEq

/-- The request context `gin.Context` as far as the handlers use it: the
authenticated caller (read by `CurrentUser`), the errors attached with
`ctx.Error`, the response status and the rendered body. -/
structure Context where
  User : GoString
  Errors : List Error
  Status : Option Nat
  Body : Option Rendered
deriving DecidableEq

/-- The call `ctx.Error(err)`: attach an error to the context. -/
def Context.Error (ctx : Context) (err : Error) : Context :=
  { ctx with Errors := ctx.Errors ++ [err] }

/-- The call `ctx.Status(code)`. -/
def Context.SetStatus (ctx : Context) (code : Nat) : Context :=
  { ctx with Status := some code }

/-- The call `h.Render(ctx, code, r)`. -/
def Context.Render (ctx : Context) (code : Nat) (r : Rendered) : Context :=
  { ctx with Status := some code, Body := some r }

/-- A request body: either it cannot be decoded into the resource, or it decodes
to a resource value (an absent field is the zero value of its type). -/
inductive Payload where
  | malformed : Payload
  | decoded (r : Proxy) : Payload
deriving DecidableEq

/-- Modelled from the spec: the method `BaseHandler.Bind` (outside
`api/proxy.go`) binds and validates the request body against the resource
schema.  A malformed body, or a `kind` that is not one of the two allowed
values, is rejected with a validation error: the request is aborted with status
400, the error is attached to the context and returned. -/
def Bind (ctx : Context) (body : Payload) : Context × Except Error Proxy :=
  match body with
  | Payload.malformed => ((ctx.SetStatus 400).Error Error.Validation, Except.error Error.Validation)
  | Payload.decoded r =>
    if r.kindAllowed then (ctx, Except.ok r)
    else ((ctx.SetStatus 400).Error Error.Validation, Except.error Error.Validation)

/-- A statement issued to the store. -/
inductive Call where
  | First (id : Nat) : Call
  | Create (m : model.Proxy) : Call
  | Delete (id : Nat) : Call
  | Updates (m : model.Proxy) : Call
deriving DecidableEq

/-- The store behind `h.DB(ctx)`: the rows of the proxy table, the rows of the
identity table, and the statements issued so far (oldest first). -/
structure DB where
  Proxies : List model.Proxy
  Identities : List model.Identity
  Calls : List Call
deriving DecidableEq

/-- Modelled from the spec: the store call `db.First(proxy, id)`: the row
with that primary key, or a Not-Found error.  With `preload` the association is
resolved from the identity table. -/
def DB.First (db : DB) (id : Nat) (preload : Bool) : DB × Except Error model.Proxy :=
  let db1 := { db with Calls := db.Calls ++ [Call.First id] }
  match db.Proxies.find? (fun row => decide (row.Model.ID = id)) with
  | none => (db1, Except.error Error.NotFound)
  | some row =>
    if preload then
      (db1, Except.ok { row with
        Identity := row.IdentityID.bind
          (fun i => db.Identities.find? (fun x => decide (x.ID = i))) })
    else (db1, Except.ok row)

/-- Modelled from the spec: the store call `db.Create(m)`: the primary key is
assigned by the store when the record carries none (zero); a record that
carries a key is inserted under it, unless the key is taken. -/
def DB.Create (db : DB) (m : model.Proxy) : DB × Except Error model.Proxy :=
  let db1 := { db with Calls := db.Calls ++ [Call.Create m] }
  if m.Model.ID = 0 then
    let id := (db.Proxies.map (fun row => row.Model.ID)).foldl max 0 + 1
    let row := { m with Model := { m.Model with ID := id } }
    ({ db1 with Proxies := db.Proxies ++ [{ row with Identity := none }] }, Except.ok row)
  else if db.Proxies.any (fun row => decide (row.Model.ID = m.Model.ID)) then
    (db1, Except.error Error.Storage)
  else
    ({ db1 with Proxies := db.Proxies ++ [{ m with Identity := none }] }, Except.ok m)

/-- Modelled from the spec: the store call `db.Delete(proxy, id)`: a hard
delete of the rows whose primary key is that of the loaded record and equals
`id`. -/
def DB.Delete (db : DB) (proxy : model.Proxy) (id : Nat) : DB × Except Error Unit :=
  ({ db with
      Proxies := db.Proxies.filter
        (fun row => !decide (row.Model.ID = proxy.Model.ID ∧ row.Model.ID = id))
      Calls := db.Calls ++ [Call.Delete id] }, Except.ok ())

/-- Modelled from the spec: the store call
`db.Model(m).Omit(clause.Associations).Updates(h.fields(m))`; the method
`BaseHandler.fields` and the statement builder are outside `api/proxy.go`.  A
column-level update of the row whose primary key is that of `m`: the four
scalar columns, the excluded blob and the updater are written from `m`; the
association columns (the identity reference), the primary key and the creator
are not written.  No row with that key: nothing is written. -/
def DB.Updates (db : DB) (m : model.Proxy) : DB × Except Error Unit :=
  ({ db with
      Proxies := db.Proxies.map (fun row =>
        if row.Model.ID = m.Model.ID then
          { row with
            Model := { row.Model with UpdateUser := m.Model.UpdateUser }
            Enabled := m.Enabled
            Kind := m.Kind
            Host := m.Host
            Port := m.Port
            Excluded := m.Excluded }
        else row)
      Calls := db.Calls ++ [Call.Updates m] }, Except.ok ())

namespace ProxyHandler

/-- The handler `ProxyHandler.Get` (proxy.go, lines 47-60); `id` is the path
id `h.pk(ctx)`. -/
def Get (db : DB) (ctx : Context) (id : Nat) : DB × Context :=
  match db.First id true with
  | (db1, Except.error err) => (db1, ctx.Error err)
  | (db1, Except.ok proxy) =>
    let r := Proxy.zero.With proxy
    (db1, ctx.Render 200 (Rendered.one r))

/-- The handler `ProxyHandler.Create` (proxy.go, lines 100-116).  When `Bind`
fails the handler returns at once, without a call to `ctx.Error`. -/
def Create (db : DB) (ctx : Context) (body : Payload) : DB × Context :=
  match Bind ctx body with
  | (ctx1, Except.error _) => (db, ctx1)
  | (ctx1, Except.ok proxy) =>
    let m := proxy.Model
    let m := { m with Model := { m.Model with CreateUser := ctx1.User } }
    match db.Create m with
    | (db1, Except.error err) => (db1, ctx1.Error err)
    | (db1, Except.ok m1) =>
      let proxy := proxy.With m1
      (db1, ctx1.Render 201 (Rendered.one proxy))

/-- The handler `ProxyHandler.Delete` (proxy.go, lines 125-140). -/
def Delete (db : DB) (ctx : Context) (id : Nat) : DB × Context :=
  match db.First id false with
  | (db1, Except.error err) => (db1, ctx.Error err)
  | (db1, Except.ok proxy) =>
    match db1.Delete proxy id with
    | (db2, Except.error err) => (db2, ctx.Error err)
    | (db2, Except.ok _) => (db2, ctx.SetStatus 204)

/-- The handler `ProxyHandler.Update` (proxy.go, lines 151-171). -/
def Update (db : DB) (ctx : Context) (id : Nat) (body : Payload) : DB × Context :=
  match Bind ctx body with
  | (ctx1, Except.error err) => (db, ctx1.Error err)
  | (ctx1, Except.ok r) =>
    let m := r.Model
    let m := { m with Model := { m.Model with ID := id } }
    let m := { m with Model := { m.Model with UpdateUser := ctx1.User } }
    match db.Updates m with
    | (db1, Except.error err) => (db1, ctx1.Error err)
    | (db1, Except.ok _) => (db1, ctx1.SetStatus 204)

end ProxyHandler

end api

/-! ## Example inputs -/

namespace Example

open api

/-- An example store: row 7 refers to identity 3, row 8 to none. -/
def db : DB :=
  { Proxies :=
      [ { Model := { ID := 7, CreateUser := str "admin", UpdateUser := [] }
          Enabled := true, Kind := str "http", Host := str "old", Port := 80
          Excluded := none, IdentityID := some 3, Identity := none },
        { Model := { ID := 8, CreateUser := str "admin", UpdateUser := [] }
          Enabled := true, Kind := str "https", Host := str "other", Port := 8443
          Excluded := none, IdentityID := none, Identity := none } ]
    Identities := [{ ID := 3, Name := str "cred" }, { ID := 4, Name := str "other" }]
    Calls := [] }

/-- An example store without rows. -/
def empty : DB := { Proxies := [], Identities := [], Calls := [] }

/-- An example request context: the caller is alice. -/
def ctx : Context :=
  { User := str "alice", Errors := [], Status := none, Body := none }

/-- An example request body; it carries the id 8 and a reference to identity 4. -/
def body : Proxy :=
  { Resource := { ID := 8, CreateUser := [], UpdateUser := [] }
    Enabled := false, Kind := str "https", Host := str "h", Port := 443
    Excluded := some [str "x"], Identity := some { ID := 4, Name := [] } }

/-- The example body with another id. -/
def bodyWithID (id : Nat) : Proxy :=
  { body with Resource := { body.Resource with ID := id } }

/-- A storage record with the given blob and nothing else set. -/
def record (blob : Option (List Nat)) : model.Proxy :=
  { Proxy.zero.Model with Excluded := blob }

/-- A wire resource with the given exclusion list and nothing else set. -/
def resource (excluded : Option (List GoString)) : Proxy :=
  { Proxy.zero with Excluded := excluded }

end Example

/-! ## Lemmas on UTF-8 and on the JSON encoding of strings -/

namespace utf8

theorem first_spec (b sz lo hi : Nat) (h : first b = some (sz, lo, hi)) :
    0x80 ≤ lo ∧ hi ≤ 0xBF
      ∧ ((sz = 2 ∧ 0xC2 ≤ b ∧ b ≤ 0xDF)
        ∨ (sz = 3 ∧ 0xE0 ≤ b ∧ b ≤ 0xEF ∧ (b ≠ 0xE0 ∨ lo = 0xA0) ∧ (b ≠ 0xED ∨ hi = 0x9F))
        ∨ (sz = 4 ∧ 0xF0 ≤ b ∧ b ≤ 0xF4 ∧ (b ≠ 0xF0 ∨ lo = 0x90) ∧ (b ≠ 0xF4 ∨ hi = 0x8F))) := by
  unfold first at h
  split_ifs at h <;> simp at h <;> omega

/-- A valid multi-byte encoding at the head of `b :: rest`: it is a prefix
`pre` of the input, it is what `EncodeRune` writes for the decoded rune, and
decoding does not look past it. -/
theorem decode_valid (b : Nat) (rest : List Nat) (hb : 0x80 ≤ b)
    (hv : ¬ ((DecodeRune (b :: rest)).1 = RuneError ∧ (DecodeRune (b :: rest)).2 = 1)) :
    ∃ t suf, b :: rest = (b :: t) ++ suf
      ∧ (b :: t).length = (DecodeRune (b :: rest)).2
      ∧ EncodeRune (DecodeRune (b :: rest)).1 = b :: t
      ∧ 0x80 ≤ (DecodeRune (b :: rest)).1
      ∧ ∀ q, DecodeRune ((b :: t) ++ q) = DecodeRune (b :: rest) := by
  have hb2 : ¬ b < RuneSelf := by simp [RuneSelf]; omega
  rcases hf : first b with _ | ⟨sz, lo, hi⟩
  · exact absurd (by simp [DecodeRune, hb2, hf]) hv
  · obtain ⟨hlo, hhi, hsz⟩ := first_spec b sz lo hi hf
    rcases rest with _ | ⟨b1, t1⟩
    · exact absurd (by simp [DecodeRune, hb2, hf]) hv
    · by_cases h1 : b1 < lo ∨ hi < b1
      · exact absurd (by simp [DecodeRune, hb2, hf, h1]) hv
      · by_cases h2 : sz ≤ 2
        · have hd : ∀ q, DecodeRune (b :: b1 :: q) = ((b % 32) * 64 + b1 % 64, 2) := by
            intro q; simp [DecodeRune, hb2, hf, h1, h2]
          refine ⟨[b1], t1, rfl, by rw [hd]; rfl, ?_, ?_, fun q => by simp [hd]⟩
          · rw [hd]; simp only [EncodeRune]
            split_ifs <;> (simp; omega)
          · rw [hd]; simp only; omega
        · rcases t1 with _ | ⟨b2, t2⟩
          · exact absurd (by simp [DecodeRune, hb2, hf, h1, h2]) hv
          · by_cases h3 : b2 < 0x80 ∨ 0xBF < b2
            · exact absurd (by simp [DecodeRune, hb2, hf, h1, h2, h3]) hv
            · by_cases h4 : sz ≤ 3
              · have hd : ∀ q, DecodeRune (b :: b1 :: b2 :: q)
                    = ((b % 16) * 4096 + (b1 % 64) * 64 + b2 % 64, 3) := by
                  intro q; simp [DecodeRune, hb2, hf, h1, h2, h3, h4]
                refine ⟨[b1, b2], t2, rfl, by rw [hd]; rfl, ?_, ?_, fun q => by simp [hd]⟩
                · rw [hd]; simp only [EncodeRune, MaxRune]
                  split_ifs <;> (simp; omega)
                · rw [hd]; simp only; omega
              · rcases t2 with _ | ⟨b3, t3⟩
                · exact absurd (by simp [DecodeRune, hb2, hf, h1, h2, h3, h4]) hv
                · by_cases h5 : b3 < 0x80 ∨ 0xBF < b3
                  · exact absurd (by simp [DecodeRune, hb2, hf, h1, h2, h3, h4, h5]) hv
                  · have hd : ∀ q, DecodeRune (b :: b1 :: b2 :: b3 :: q)
                        = ((b % 8) * 262144 + (b1 % 64) * 4096 + (b2 % 64) * 64 + b3 % 64, 4) := by
                      intro q; simp [DecodeRune, hb2, hf, h1, h2, h3, h4, h5]
                    refine ⟨[b1, b2, b3], t3, rfl, by rw [hd]; rfl, ?_, ?_,
                      fun q => by simp [hd]⟩
                    · rw [hd]; simp only [EncodeRune, MaxRune]
                      split_ifs <;> (simp; omega)
                    · rw [hd]; simp only; omega

end utf8

/-! ## The fuel of the scanner is enough -/

namespace utf8

theorem DecodeRune_size_pos (c : Nat) (rest : List Nat) : 1 ≤ (DecodeRune (c :: rest)).2 := by
  simp only [DecodeRune]
  split_ifs
  · simp
  · rcases first c with _ | ⟨sz, lo, hi⟩
    · simp
    · rcases rest with _ | ⟨b1, _ | ⟨b2, _ | ⟨b3, t3⟩⟩⟩ <;> dsimp only <;> (try split_ifs) <;> simp

end utf8

namespace json

/-- More fuel than the input is long does not change what the string scanner
returns. -/
theorem parseStringBody_fuel :
    ∀ (n : Nat) (s : List Nat), s.length ≤ n → ∀ f g : Nat, s.length ≤ f → s.length ≤ g →
      parseStringBody f s = parseStringBody g s := by
  intro n
  induction n with
  | zero =>
    intro s hs f g _ _
    have : s = [] := List.eq_nil_of_length_eq_zero (by omega)
    subst this
    cases f <;> cases g <;> rfl
  | succ n ih =>
    intro s hs f g hf hg
    rcases s with _ | ⟨c, rest⟩
    · cases f <;> cases g <;> rfl
    · simp only [List.length_cons] at hs hf hg
      obtain ⟨f, rfl⟩ : ∃ k, f = k + 1 := ⟨f - 1, by omega⟩
      obtain ⟨g, rfl⟩ : ∃ k, g = k + 1 := ⟨g - 1, by omega⟩
      have step : ∀ t : List Nat, t.length ≤ rest.length →
          parseStringBody f t = parseStringBody g t :=
        fun t ht => ih t (by omega) f g (by omega) (by omega)
      simp only [parseStringBody]
      split_ifs with h1 h2 h3 h4
      · rfl
      · rcases rest with _ | ⟨e, rest1⟩
        · rfl
        · simp only [List.length_cons] at step
          dsimp only
          split_ifs with h5
          · rcases rest1 with _ | ⟨a, _ | ⟨b, _ | ⟨c1, _ | ⟨d, rest2⟩⟩⟩⟩ <;> try rfl
            dsimp only
            have e1 := step rest2 (by simp only [List.length_cons]; omega)
            have e2 := step (rest2.drop 6) (by simp only [List.length_drop, List.length_cons]; omega)
            rw [e1, e2]
          · rw [step rest1 (by omega)]
      · rfl
      · rw [step rest (le_refl _)]
      · have hpos := utf8.DecodeRune_size_pos c rest
        rw [step _ (by simp only [List.length_drop, List.length_cons]; omega)]

/-- The string scanner consumes input. -/
theorem parseStringBody_length :
    ∀ (f : Nat) (s : List Nat) (x : GoString) (r : List Nat),
      parseStringBody f s = some (x, r) → r.length < s.length := by
  intro f
  induction f with
  | zero => intro s x r h; simp [parseStringBody] at h
  | succ f ih =>
    intro s x r h
    rcases s with _ | ⟨c, rest⟩
    · simp [parseStringBody] at h
    · have step : ∀ (t : List Nat) (g : GoString × List Nat → GoString × List Nat),
          (parseStringBody f t).map g = some (x, r) → (∀ p, (g p).2 = p.2) →
          r.length < t.length := by
        intro t g ht hg
        rcases hp : parseStringBody f t with _ | ⟨y, r1⟩
        · simp [hp] at ht
        · rw [hp] at ht
          simp only [Option.map_some', Option.some.injEq] at ht
          have h2 := hg (y, r1)
          rw [ht] at h2
          simp only at h2
          subst h2
          exact ih t y _ hp
      simp only [parseStringBody] at h
      split_ifs at h with h1 h2 h3 h4
      · simp only [Option.some.injEq, Prod.mk.injEq] at h
        rw [← h.2]; simp
      · rcases rest with _ | ⟨e, rest1⟩
        · simp at h
        · dsimp only at h
          split_ifs at h with h5
          · rcases rest1 with _ | ⟨a, _ | ⟨b, _ | ⟨c1, _ | ⟨d, rest2⟩⟩⟩⟩ <;> try (simp at h; done)
            dsimp only at h
            split at h
            · simp at h
            · split_ifs at h
              · split at h
                · split_ifs at h
                  · have := step _ _ h (fun _ => rfl)
                    simp only [List.length_drop, List.length_cons] at this ⊢
                    omega
                  · have := step _ _ h (fun _ => rfl)
                    simp only [List.length_cons] at this ⊢
                    omega
                · have := step _ _ h (fun _ => rfl)
                  simp only [List.length_cons] at this ⊢
                  omega
              · have := step _ _ h (fun _ => rfl)
                simp only [List.length_cons] at this ⊢
                omega
          · split at h
            · simp at h
            · have := step _ _ h (fun _ => rfl)
              simp only [List.length_cons] at this ⊢
              omega
      · have := step _ _ h (fun _ => rfl)
        simp only [List.length_cons] at this ⊢
        omega
      · have := step _ _ h (fun _ => rfl)
        simp only [List.length_drop, List.length_cons] at this ⊢
        omega

end json

namespace utf8

/-- The loop of `ValidString` does not depend on its fuel, once the fuel covers
the input. -/
theorem validLoop_fuel :
    ∀ (n : Nat) (s : List Nat), s.length ≤ n → ∀ f g : Nat, s.length ≤ f → s.length ≤ g →
      validLoop f s = validLoop g s := by
  intro n
  induction n with
  | zero =>
    intro s hs f g _ _
    have : s = [] := List.eq_nil_of_length_eq_zero (by omega)
    subst this
    cases f <;> cases g <;> rfl
  | succ n ih =>
    intro s hs f g hf hg
    rcases s with _ | ⟨b, rest⟩
    · cases f <;> cases g <;> rfl
    · simp only [List.length_cons] at hs hf hg
      obtain ⟨f, rfl⟩ : ∃ k, f = k + 1 := ⟨f - 1, by omega⟩
      obtain ⟨g, rfl⟩ : ∃ k, g = k + 1 := ⟨g - 1, by omega⟩
      have hpos := DecodeRune_size_pos b rest
      simp only [validLoop]
      rw [ih rest (by omega) f g (by omega) (by omega),
        ih ((b :: rest).drop (DecodeRune (b :: rest)).2)
          (by simp only [List.length_drop, List.length_cons]; omega) f g
          (by simp only [List.length_drop, List.length_cons]; omega)
          (by simp only [List.length_drop, List.length_cons]; omega)]

end utf8

namespace json

/-- The loop of the string encoder does not depend on its fuel, once the fuel
covers the input. -/
theorem encodeStringLoop_fuel :
    ∀ (n : Nat) (s : List Nat), s.length ≤ n → ∀ f g : Nat, s.length ≤ f → s.length ≤ g →
      encodeStringLoop f s = encodeStringLoop g s := by
  intro n
  induction n with
  | zero =>
    intro s hs f g _ _
    have : s = [] := List.eq_nil_of_length_eq_zero (by omega)
    subst this
    cases f <;> cases g <;> rfl
  | succ n ih =>
    intro s hs f g hf hg
    rcases s with _ | ⟨b, rest⟩
    · cases f <;> cases g <;> rfl
    · simp only [List.length_cons] at hs hf hg
      obtain ⟨f, rfl⟩ : ∃ k, f = k + 1 := ⟨f - 1, by omega⟩
      obtain ⟨g, rfl⟩ : ∃ k, g = k + 1 := ⟨g - 1, by omega⟩
      have hpos := utf8.DecodeRune_size_pos b rest
      simp only [encodeStringLoop]
      rw [ih rest (by omega) f g (by omega) (by omega),
        ih ((b :: rest).drop (utf8.DecodeRune (b :: rest)).2)
          (by simp only [List.length_drop, List.length_cons]; omega) f g
          (by simp only [List.length_drop, List.length_cons]; omega)
          (by simp only [List.length_drop, List.length_cons]; omega)]

end json

namespace json

theorem hexVal_hex (d : Nat) (h : d < 16) : hexVal (hex d) = some d := by
  unfold hex hexVal
  split_ifs <;> (try simp) <;> omega

theorem getu4_escapeByte (b : Nat) (h : b < 0x80) :
    getu4 0x30 0x30 (hex (b / 16)) (hex (b % 16)) = some b := by
  have h0 : hexVal 0x30 = some 0 := by decide
  have h1 : hexVal (hex (b / 16)) = some (b / 16) := hexVal_hex _ (by omega)
  have h2 : hexVal (hex (b % 16)) = some (b % 16) := hexVal_hex _ (by omega)
  simp only [getu4, h0, h1, h2, Option.some.injEq]
  omega

theorem getu4_separator (c : Nat) (h : c = 0x2028 ∨ c = 0x2029) :
    getu4 0x32 0x30 0x32 (hex (c % 16)) = some c := by
  rcases h with rfl | rfl <;> decide

theorem parseStringBody_quote (fp : Nat) (rest : List Nat) :
    parseStringBody (fp + 1) (0x22 :: rest) = some ([], rest) := by
  simp [parseStringBody]

theorem parseStringBody_ascii (fp c : Nat) (rest : List Nat)
    (h1 : c ≠ 0x22) (h2 : c ≠ 0x5C) (h3 : 0x20 ≤ c) (h4 : c < 0x80) :
    parseStringBody (fp + 1) (c :: rest)
      = (parseStringBody fp rest).map (fun p => (c :: p.1, p.2)) := by
  have h5 : ¬ c < 0x20 := by omega
  simp [parseStringBody, h1, h2, h5, utf8.RuneSelf, h4]

theorem parseStringBody_escape (fp e b : Nat) (rest : List Nat)
    (he : e ≠ 0x75) (hu : unescape e = some b) :
    parseStringBody (fp + 1) (0x5C :: e :: rest)
      = (parseStringBody fp rest).map (fun p => (b :: p.1, p.2)) := by
  simp [parseStringBody, he, hu]

theorem parseStringBody_u (fp a b c d rr : Nat) (rest : List Nat)
    (hg : getu4 a b c d = some rr) (hs : ¬ (0xD800 ≤ rr ∧ rr < 0xE000)) :
    parseStringBody (fp + 1) (0x5C :: 0x75 :: a :: b :: c :: d :: rest)
      = (parseStringBody fp rest).map (fun p => (utf8.EncodeRune rr ++ p.1, p.2)) := by
  simp [parseStringBody, hg, hs]

theorem parseStringBody_multi (fp c : Nat) (rest : List Nat) (h : 0x80 ≤ c) :
    parseStringBody (fp + 1) (c :: rest)
      = (parseStringBody fp ((c :: rest).drop (utf8.DecodeRune (c :: rest)).2)).map
          (fun p => (utf8.EncodeRune (utf8.DecodeRune (c :: rest)).1 ++ p.1, p.2)) := by
  have h1 : c ≠ 0x22 := by omega
  have h2 : c ≠ 0x5C := by omega
  have h3 : ¬ c < 0x20 := by omega
  have h4 : ¬ c < 0x80 := by omega
  simp [parseStringBody, h1, h2, h3, h4, utf8.RuneSelf]

end json

namespace json

theorem parseStringBody_escapeByte (fp b : Nat) (rest : List Nat) (h : b < 0x80) :
    parseStringBody (fp + 1) (escapeByte b ++ rest)
      = (parseStringBody fp rest).map (fun p => (b :: p.1, p.2)) := by
  unfold escapeByte
  split_ifs with h1 h2 h3 h4 h5 h6
  · rcases h1 with rfl | rfl
    · exact parseStringBody_escape fp _ _ rest (by decide) (by decide)
    · exact parseStringBody_escape fp _ _ rest (by decide) (by decide)
  · subst h2; exact parseStringBody_escape fp _ _ rest (by decide) (by decide)
  · subst h3; exact parseStringBody_escape fp _ _ rest (by decide) (by decide)
  · subst h4; exact parseStringBody_escape fp _ _ rest (by decide) (by decide)
  · subst h5; exact parseStringBody_escape fp _ _ rest (by decide) (by decide)
  · subst h6; exact parseStringBody_escape fp _ _ rest (by decide) (by decide)
  · have hs : ¬ (0xD800 ≤ b ∧ b < 0xE000) := by omega
    have he : utf8.EncodeRune b = [b] := by
      simp only [utf8.EncodeRune]
      rw [if_pos (by omega)]
    have := parseStringBody_u fp 0x30 0x30 (hex (b / 16)) (hex (b % 16)) b rest
      (getu4_escapeByte b h) hs
    simpa [he] using this

theorem encodeStringLoop_nil (fe : Nat) : encodeStringLoop fe [] = [] := by
  cases fe <;> rfl

theorem coerceLoop_nil (fc : Nat) : coerceLoop fc [] = [] := by
  cases fc <;> rfl

/-- The string parser reads back what the string encoder wrote: the string,
coerced to valid UTF-8. -/
theorem parseStringBody_encodeStringLoop :
    ∀ (n : Nat) (s : List Nat), s.length ≤ n →
      ∀ (fc fe fp : Nat) (tail : List Nat),
        s.length ≤ fc → s.length ≤ fe →
        (encodeStringLoop fe s).length < fp →
        parseStringBody fp (encodeStringLoop fe s ++ 0x22 :: tail)
          = some (coerceLoop fc s, tail) := by
  intro n
  induction n with
  | zero =>
    intro s hs fc fe fp tail _ _ hfp
    have : s = [] := List.eq_nil_of_length_eq_zero (by omega)
    subst this
    rw [encodeStringLoop_nil] at hfp ⊢
    rw [coerceLoop_nil]
    obtain ⟨fp, rfl⟩ : ∃ k, fp = k + 1 := ⟨fp - 1, by simp at hfp; omega⟩
    exact parseStringBody_quote fp tail
  | succ n ih =>
    intro s hs fc fe fp tail hfc hfe hfp
    rcases s with _ | ⟨b, rest⟩
    · rw [encodeStringLoop_nil] at hfp ⊢
      rw [coerceLoop_nil]
      obtain ⟨fp, rfl⟩ : ∃ k, fp = k + 1 := ⟨fp - 1, by simp at hfp; omega⟩
      exact parseStringBody_quote fp tail
    · simp only [List.length_cons] at hs hfc hfe
      obtain ⟨fc, rfl⟩ : ∃ k, fc = k + 1 := ⟨fc - 1, by omega⟩
      obtain ⟨fe, rfl⟩ : ∃ k, fe = k + 1 := ⟨fe - 1, by omega⟩
      obtain ⟨fp, rfl⟩ : ∃ k, fp = k + 1 := ⟨fp - 1, by omega⟩
      simp only [coerceLoop]
      simp only [encodeStringLoop] at hfp ⊢
      by_cases hb : b < utf8.RuneSelf
      · rw [if_pos hb] at hfp ⊢
        rw [if_pos hb]
        have hb80 : b < 0x80 := hb
        by_cases hsafe : htmlSafeSet b = true
        · rw [if_pos hsafe] at hfp ⊢
          simp only [htmlSafeSet, decide_eq_true_eq] at hsafe
          simp only [List.length_cons] at hfp
          rw [List.cons_append,
            parseStringBody_ascii fp b _ (by omega) (by omega) (by omega) (by omega),
            ih rest (by omega) fc fe fp tail (by omega) (by omega) (by omega)]
          rfl
        · rw [if_neg hsafe] at hfp ⊢
          have hlen : 2 ≤ (escapeByte b).length := by
            unfold escapeByte; split_ifs <;> simp
          simp only [List.length_append] at hfp
          rw [List.append_assoc, parseStringBody_escapeByte fp b _ hb80,
            ih rest (by omega) fc fe fp tail (by omega) (by omega) (by omega)]
          rfl
      · rw [if_neg hb] at hfp ⊢
        rw [if_neg hb]
        have hb80 : 0x80 ≤ b := by simp [utf8.RuneSelf] at hb; omega
        by_cases hinv : (utf8.DecodeRune (b :: rest)).1 = utf8.RuneError
            ∧ (utf8.DecodeRune (b :: rest)).2 = 1
        · rw [if_pos hinv] at hfp ⊢
          rw [if_pos hinv]
          simp only [List.length_append, List.length_cons, List.length_nil] at hfp
          have hu := parseStringBody_u fp 0x66 0x66 0x66 0x64 0xFFFD
            (encodeStringLoop fe rest ++ 0x22 :: tail) (by decide) (by decide)
          have he : utf8.EncodeRune 0xFFFD = [0xEF, 0xBF, 0xBD] := by decide
          simp only [List.cons_append, List.nil_append, List.append_assoc] at hu ⊢
          rw [hu, ih rest (by omega) fc fe fp tail (by omega) (by omega) (by omega), he]
          rfl
        · rw [if_neg hinv] at hfp ⊢
          rw [if_neg hinv]
          obtain ⟨t, suf, hsplit, hlen, henc, hc80, hdec⟩ := utf8.decode_valid b rest hb80 hinv
          have hdrop : (b :: rest).drop (utf8.DecodeRune (b :: rest)).2 = suf := by
            rw [← hlen, hsplit, List.drop_left]
          have htake : (b :: rest).take (utf8.DecodeRune (b :: rest)).2 = b :: t := by
            rw [← hlen, hsplit, List.take_left]
          have hsuf : suf.length + (t.length + 1) = rest.length + 1 := by
            have := congrArg List.length hsplit
            simp only [List.length_cons, List.length_append] at this
            omega
          rw [hdrop] at hfp ⊢
          rw [htake]
          by_cases hsep : (utf8.DecodeRune (b :: rest)).1 = 0x2028
              ∨ (utf8.DecodeRune (b :: rest)).1 = 0x2029
          · rw [if_pos hsep] at hfp ⊢
            simp only [List.length_append, List.length_cons, List.length_nil] at hfp
            have hs : ¬ (0xD800 ≤ (utf8.DecodeRune (b :: rest)).1
                ∧ (utf8.DecodeRune (b :: rest)).1 < 0xE000) := by omega
            have hu := parseStringBody_u fp 0x32 0x30 0x32
              (hex ((utf8.DecodeRune (b :: rest)).1 % 16)) _
              (encodeStringLoop fe suf ++ 0x22 :: tail) (getu4_separator _ hsep) hs
            simp only [List.cons_append, List.nil_append, List.append_assoc] at hu ⊢
            rw [hu, ih suf (by omega) fc fe fp tail (by omega) (by omega) (by omega),
              henc]
            rfl
          · rw [if_neg hsep] at hfp ⊢
            rw [htake] at hfp
            simp only [List.length_append, List.length_cons] at hfp
            simp only [List.cons_append, List.append_assoc]
            rw [parseStringBody_multi fp b _ hb80]
            have hd2 := hdec (encodeStringLoop fe suf ++ 0x22 :: tail)
            simp only [List.cons_append, List.append_assoc] at hd2 ⊢
            rw [hd2, ← hlen]
            have hdrop2 : List.drop (b :: t).length
                (b :: (t ++ (encodeStringLoop fe suf ++ 0x22 :: tail)))
                = encodeStringLoop fe suf ++ 0x22 :: tail := by
              rw [← List.cons_append, List.drop_left]
            rw [hdrop2,
              ih suf (by omega) fc fe fp tail (by omega) (by omega) (by omega),
              henc]
            rfl

/-- Coercion leaves a string of valid UTF-8 as it is. -/
theorem coerceLoop_valid :
    ∀ (n : Nat) (s : List Nat), s.length ≤ n → ∀ fv fc : Nat,
      s.length ≤ fv → s.length ≤ fc → utf8.validLoop fv s = true → coerceLoop fc s = s := by
  intro n
  induction n with
  | zero =>
    intro s hs fv fc _ _ _
    have : s = [] := List.eq_nil_of_length_eq_zero (by omega)
    subst this
    exact coerceLoop_nil fc
  | succ n ih =>
    intro s hs fv fc hfv hfc hvalid
    rcases s with _ | ⟨b, rest⟩
    · exact coerceLoop_nil fc
    · simp only [List.length_cons] at hs hfv hfc
      obtain ⟨fv, rfl⟩ : ∃ k, fv = k + 1 := ⟨fv - 1, by omega⟩
      obtain ⟨fc, rfl⟩ : ∃ k, fc = k + 1 := ⟨fc - 1, by omega⟩
      simp only [utf8.validLoop] at hvalid
      simp only [coerceLoop]
      by_cases hb : b < utf8.RuneSelf
      · rw [if_pos hb] at hvalid ⊢
        rw [ih rest (by omega) fv fc (by omega) (by omega) hvalid]
      · rw [if_neg hb] at hvalid ⊢
        by_cases hinv : (utf8.DecodeRune (b :: rest)).1 = utf8.RuneError
            ∧ (utf8.DecodeRune (b :: rest)).2 = 1
        · rw [if_pos hinv] at hvalid
          exact absurd hvalid (by simp)
        · rw [if_neg hinv] at hvalid ⊢
          have hpos := utf8.DecodeRune_size_pos b rest
          rw [ih _ (by simp only [List.length_drop, List.length_cons]; omega) fv fc
            (by simp only [List.length_drop, List.length_cons]; omega)
            (by simp only [List.length_drop, List.length_cons]; omega) hvalid]
          exact List.take_append_drop _ _

theorem coerce_valid (s : GoString) (h : utf8.ValidString s = true) : coerce s = s :=
  coerceLoop_valid s.length s (le_refl _) s.length s.length (le_refl _) (le_refl _) h

end json

namespace json

theorem skipSpace_cons (c : Nat) (r : List Nat) (h : isSpace c = false) :
    skipSpace (c :: r) = c :: r := by
  simp [skipSpace, h]

theorem parseValue_encodeString (f depth : Nat) (x : GoString) (tail : List Nat) :
    parseValue (f + 1) depth (encodeString x ++ tail) = some (JVal.str (coerce x), tail) := by
  have hbody : parseStringBody (encodeStringLoop x.length x ++ 0x22 :: tail).length
      (encodeStringLoop x.length x ++ 0x22 :: tail) = some (coerceLoop x.length x, tail) :=
    parseStringBody_encodeStringLoop x.length x (le_refl _) x.length x.length _ tail
      (le_refl _) (le_refl _) (by simp)
  have happ : encodeString x ++ tail
      = 0x22 :: (encodeStringLoop x.length x ++ 0x22 :: tail) := by
    simp [encodeString]
  rw [happ]
  simp only [parseValue]
  rw [if_pos trivial, hbody]
  rfl

theorem encodeElems_cons (x : GoString) (xs : List GoString) :
    ∃ r, encodeElems (x :: xs) = 0x22 :: r := by
  cases xs with
  | nil => exact ⟨_, rfl⟩
  | cons y ys => exact ⟨_, rfl⟩

theorem parseElems_encodeElems (f depth : Nat) :
    ∀ (xs : List GoString) (x : GoString) (fuel : Nat) (tail : List Nat),
      xs.length < fuel →
      parseElems (parseValue (f + 1) depth) fuel (encodeElems (x :: xs) ++ 0x5D :: tail)
        = some ((x :: xs).map (fun y => JVal.str (coerce y)), tail) := by
  intro xs
  induction xs with
  | nil =>
    intro x fuel tail hfuel
    obtain ⟨fuel, rfl⟩ : ∃ k, fuel = k + 1 := ⟨fuel - 1, by omega⟩
    simp only [encodeElems, parseElems]
    rw [parseValue_encodeString f depth x _]
    simp only [skipSpace_cons 0x5D tail (by decide)]
    rw [if_pos trivial]
    rfl
  | cons y ys ih =>
    intro x fuel tail hfuel
    obtain ⟨fuel, rfl⟩ : ∃ k, fuel = k + 1 := ⟨fuel - 1, by omega⟩
    simp only [List.length_cons] at hfuel
    simp only [encodeElems, parseElems, List.append_assoc, List.cons_append]
    rw [parseValue_encodeString f depth x _]
    simp only [skipSpace_cons 0x2C _ (by decide)]
    rw [if_pos trivial]
    obtain ⟨r, hr⟩ := encodeElems_cons y ys
    have hskip : skipSpace (encodeElems (y :: ys) ++ 0x5D :: tail)
        = encodeElems (y :: ys) ++ 0x5D :: tail := by
      rw [hr, List.cons_append]
      exact skipSpace_cons 0x22 _ (by decide)
    rw [hskip, ih y fuel tail (by omega)]
    rfl

theorem storeElems_strings (xs old : List GoString) :
    storeElems (xs.map JVal.str) old = xs := by
  induction xs generalizing old with
  | nil => rfl
  | cons x xs ih => simp [storeElems, ih]

theorem any_mismatch_strings (xs : List GoString) :
    (xs.map JVal.str).any JVal.mismatch = false := by
  induction xs with
  | nil => rfl
  | cons x xs ih => simp [JVal.mismatch]

theorem length_encodeElems_cons (x : GoString) (xs : List GoString) :
    xs.length < (encodeElems (x :: xs)).length := by
  induction xs generalizing x with
  | nil => simp [encodeElems, encodeString]
  | cons y ys ih =>
    have := ih y
    simp only [encodeElems, List.length_append, List.length_cons] at this ⊢
    omega

/-- What `Marshal` writes for a list of strings is a JSON text for the array of
those strings, each coerced to valid UTF-8. -/
theorem parse_Marshal_coerce (s : List GoString) :
    parse (Marshal (some s)) = some (JVal.arr (s.map (fun x => JVal.str (coerce x)))) := by
  cases s with
  | nil => rfl
  | cons x xs =>
    obtain ⟨r, hr⟩ := encodeElems_cons x xs
    have hlen := length_encodeElems_cons x xs
    have hskip : skipSpace (encodeElems (x :: xs) ++ [0x5D]) = encodeElems (x :: xs) ++ [0x5D] := by
      rw [hr, List.cons_append]
      exact skipSpace_cons 0x22 _ (by decide)
    obtain ⟨f, hf⟩ : ∃ f, (Marshal (some (x :: xs))).length = f + 1 :=
      ⟨(encodeElems (x :: xs) ++ [0x5D]).length, by simp [Marshal]⟩
    have hpe := parseElems_encodeElems f 1 xs x (encodeElems (x :: xs) ++ [0x5D]).length []
      (by simp only [List.length_append]; omega)
    unfold parse
    rw [hf]
    have hdepth : ¬ maxNestingDepth < 0 + 1 := by decide
    simp only [Marshal, skipSpace_cons 0x5B _ (by decide), parseValue]
    rw [if_pos trivial, if_neg hdepth, hskip]
    rw [hr] at hpe ⊢
    simp only [List.cons_append, Nat.zero_add] at hpe ⊢
    rw [if_neg (by decide), hpe]
    rfl

theorem map_coerce_valid (s : List GoString) (hv : ∀ x ∈ s, utf8.ValidString x = true) :
    s.map (fun x => JVal.str (coerce x)) = s.map JVal.str := by
  apply List.map_congr_left
  intro x hx
  rw [coerce_valid x (hv x hx)]

theorem parse_Marshal (s : List GoString) (hv : ∀ x ∈ s, utf8.ValidString x = true) :
    parse (Marshal (some s)) = some (JVal.arr (s.map JVal.str)) := by
  rw [parse_Marshal_coerce, map_coerce_valid s hv]

theorem Unmarshal_Marshal (s : List GoString) (hv : ∀ x ∈ s, utf8.ValidString x = true)
    (v : Option (List GoString)) :
    Unmarshal (some (Marshal (some s))) v = (some s, none) := by
  simp only [Unmarshal, Option.getD_some, parse_Marshal s hv, storeElems_strings,
    any_mismatch_strings]
  rfl

end json

namespace json

theorem storeElems_nil (vs : List JVal) :
    storeElems vs [] = vs.map (fun v => match v with
      | JVal.str s => s
      | _ => []) := by
  induction vs with
  | nil => rfl
  | cons v vs ih => cases v <;> simp [storeElems, ih]

end json

namespace json

theorem encodeStringLoop_safe :
    ∀ (x : List Nat) (f : Nat), x.length ≤ f → (∀ b ∈ x, htmlSafeSet b = true) →
      encodeStringLoop f x = x := by
  intro x
  induction x with
  | nil => intro f _ _; exact encodeStringLoop_nil f
  | cons b rest ih =>
    intro f hf hsafe
    simp only [List.length_cons] at hf
    obtain ⟨f, rfl⟩ : ∃ k, f = k + 1 := ⟨f - 1, by omega⟩
    have hb : htmlSafeSet b = true := hsafe b (List.mem_cons_self _ _)
    have hb80 : b < utf8.RuneSelf := by
      simp only [htmlSafeSet, decide_eq_true_eq] at hb
      simp only [utf8.RuneSelf]; omega
    simp only [encodeStringLoop]
    rw [if_pos hb80, if_pos hb,
      ih f (by omega) (fun c hc => hsafe c (List.mem_cons_of_mem _ hc))]

theorem encodeElems_intercalate (xs : List GoString) :
    encodeElems xs = List.intercalate [0x2C] (xs.map encodeString) := by
  induction xs with
  | nil => rfl
  | cons x rest ih =>
    cases rest with
    | nil => simp [encodeElems, List.intercalate, List.intersperse]
    | cons y ys =>
      simp only [encodeElems] at ih ⊢
      rw [ih]
      simp [List.intercalate, List.intersperse]

/-- For strings that need no escaping the encoder writes the plain array
text. -/
theorem Marshal_arrayText (xs : List GoString)
    (hsafe : ∀ x ∈ xs, ∀ b ∈ x, htmlSafeSet b = true) :
    Marshal (some xs) = arrayText xs := by
  have hmap : xs.map encodeString = xs.map (fun x => 0x22 :: (x ++ [0x22])) := by
    apply List.map_congr_left
    intro x hx
    simp only [encodeString, encodeStringLoop_safe x x.length (le_refl _) (hsafe x hx)]
  simp only [Marshal, arrayText, encodeElems_intercalate, hmap]

end json

namespace json

theorem skipSpace_length (s : List Nat) : (skipSpace s).length ≤ s.length := by
  induction s with
  | nil => simp [skipSpace]
  | cons c rest ih =>
    simp only [skipSpace]
    split_ifs
    · simp only [List.length_cons]; omega
    · exact le_refl _

theorem skipDigits_length (s : List Nat) : (skipDigits s).length ≤ s.length := by
  induction s with
  | nil => simp [skipDigits]
  | cons c rest ih =>
    simp only [skipDigits]
    split_ifs
    · simp only [List.length_cons]; omega
    · exact le_refl _

theorem scanExp_length (s r : List Nat) (h : scanExp s = some r) : r.length ≤ s.length := by
  rcases s with _ | ⟨c, rest⟩
  · simp [scanExp] at h
  · simp only [scanExp] at h
    split at h
    · split_ifs at h with h1
      · simp only [Option.some.injEq] at h
        rename_i c2 r2 heq
        have h3 := skipDigits_length r2
        have h4 : (c2 :: r2).length ≤ (c :: rest).length := by
          split_ifs at heq with h5
          · rw [← heq]; simp
          · rw [← heq]
        simp only [List.length_cons] at h4 ⊢
        rw [← h]; omega
    · simp at h

theorem scanOptExp_length (s r : List Nat) (h : scanOptExp s = some r) :
    r.length ≤ s.length := by
  rcases s with _ | ⟨c, rest⟩
  · simp only [scanOptExp, Option.some.injEq] at h
    rw [← h]
  · simp only [scanOptExp] at h
    split_ifs at h
    · have := scanExp_length _ _ h
      simp only [List.length_cons]; omega
    · simp only [Option.some.injEq] at h
      rw [← h]

theorem scanFracExp_length (s r : List Nat) (h : scanFracExp s = some r) :
    r.length ≤ s.length := by
  rcases s with _ | ⟨c, rest⟩
  · simp only [scanFracExp, Option.some.injEq] at h
    rw [← h]
  · simp only [scanFracExp] at h
    split_ifs at h
    · rcases rest with _ | ⟨d, rest1⟩
      · simp at h
      · dsimp only at h
        split_ifs at h
        have h1 := scanOptExp_length _ _ h
        have h2 := skipDigits_length rest1
        simp only [List.length_cons]; omega
    · exact scanOptExp_length _ _ h

theorem scanInt_length (s r : List Nat) (h : scanInt s = some r) : r.length < s.length := by
  rcases s with _ | ⟨c, rest⟩
  · simp [scanInt] at h
  · simp only [scanInt] at h
    split_ifs at h
    · have := scanFracExp_length _ _ h
      simp only [List.length_cons]; omega
    · have h1 := scanFracExp_length _ _ h
      have h2 := skipDigits_length rest
      simp only [List.length_cons]; omega

/-- The array scanner consumes input, when the value scanner does. -/
theorem parseElems_length (pv : List Nat → Option (JVal × List Nat))
    (hpv : ∀ t v r, pv t = some (v, r) → r.length < t.length) :
    ∀ (f : Nat) (s : List Nat) (vs : List JVal) (r : List Nat),
      parseElems pv f s = some (vs, r) → r.length < s.length := by
  intro f
  induction f with
  | zero => intro s vs r h; simp [parseElems] at h
  | succ f ih =>
    intro s vs r h
    simp only [parseElems] at h
    rcases hp : pv s with _ | ⟨v, r0⟩
    · simp [hp] at h
    · rw [hp] at h
      dsimp only at h
      have h0 := hpv s v r0 hp
      have hsk := skipSpace_length r0
      rcases hs : skipSpace r0 with _ | ⟨c, r1⟩
      · simp [hs] at h
      · rw [hs] at h hsk
        dsimp only at h
        simp only [List.length_cons] at hsk
        split_ifs at h
        · rcases hq : parseElems pv f (skipSpace r1) with _ | ⟨ws, r2⟩
          · simp [hq] at h
          · rw [hq] at h
            simp only [Option.map_some', Option.some.injEq, Prod.mk.injEq] at h
            have h2 := ih _ _ _ hq
            have h3 := skipSpace_length r1
            rw [← h.2]; omega
        · simp only [Option.some.injEq, Prod.mk.injEq] at h
          rw [← h.2]; omega

/-- The object scanner consumes input, when the value scanner does. -/
theorem parseMembers_length (pv : List Nat → Option (JVal × List Nat))
    (hpv : ∀ t v r, pv t = some (v, r) → r.length < t.length) :
    ∀ (f : Nat) (s : List Nat) (kvs : List (GoString × JVal)) (r : List Nat),
      parseMembers pv f s = some (kvs, r) → r.length < s.length := by
  intro f
  induction f with
  | zero => intro s kvs r h; simp [parseMembers] at h
  | succ f ih =>
    intro s kvs r h
    rcases s with _ | ⟨q, r0⟩
    · simp [parseMembers] at h
    · simp only [parseMembers] at h
      split_ifs at h
      rcases hk : parseStringBody r0.length r0 with _ | ⟨k, r1⟩
      · simp [hk] at h
      · rw [hk] at h
        dsimp only at h
        have h1 := parseStringBody_length _ _ _ _ hk
        have hsk1 := skipSpace_length r1
        rcases hs : skipSpace r1 with _ | ⟨c, r2⟩
        · simp [hs] at h
        · rw [hs] at h hsk1
          dsimp only at h
          simp only [List.length_cons] at hsk1
          split_ifs at h
          have hsk2 := skipSpace_length r2
          rcases hp : pv (skipSpace r2) with _ | ⟨v, r3⟩
          · simp [hp] at h
          · rw [hp] at h
            dsimp only at h
            have h3 := hpv _ _ _ hp
            have hsk3 := skipSpace_length r3
            rcases hs3 : skipSpace r3 with _ | ⟨c1, r4⟩
            · simp [hs3] at h
            · rw [hs3] at h hsk3
              dsimp only at h
              simp only [List.length_cons] at hsk3
              split_ifs at h
              · rcases hq : parseMembers pv f (skipSpace r4) with _ | ⟨ws, r5⟩
                · simp [hq] at h
                · rw [hq] at h
                  simp only [Option.map_some', Option.some.injEq, Prod.mk.injEq] at h
                  have h5 := ih _ _ _ hq
                  have hsk4 := skipSpace_length r4
                  simp only [List.length_cons]
                  rw [← h.2]; omega
              · simp only [Option.some.injEq, Prod.mk.injEq] at h
                simp only [List.length_cons]
                rw [← h.2]; omega

end json

namespace json

/-- The value scanner consumes input. -/
theorem parseValue_length :
    ∀ (f depth : Nat) (s : List Nat) (v : JVal) (r : List Nat),
      parseValue f depth s = some (v, r) → r.length < s.length := by
  intro f
  induction f with
  | zero => intro depth s v r h; simp [parseValue] at h
  | succ f ih =>
    intro depth s v r h
    rcases s with _ | ⟨c, rest⟩
    · simp [parseValue] at h
    · simp only [parseValue] at h
      have hsk := skipSpace_length rest
      split_ifs at h
      · rcases hs : skipSpace rest with _ | ⟨c1, r1⟩
        · simp [hs] at h
        · rw [hs] at h hsk
          dsimp only at h
          simp only [List.length_cons] at hsk ⊢
          split_ifs at h
          · simp only [Option.some.injEq, Prod.mk.injEq] at h
            rw [← h.2]; omega
          · rcases hq : parseElems (parseValue f (depth + 1)) (c1 :: r1).length (c1 :: r1)
              with _ | ⟨ws, r2⟩
            · rw [hq] at h; simp at h
            · rw [hq] at h
              simp only [Option.map_some', Option.some.injEq, Prod.mk.injEq] at h
              have := parseElems_length _ (ih (depth + 1)) _ _ _ _ hq
              simp only [List.length_cons] at this
              rw [← h.2]; omega
      · rcases hs : skipSpace rest with _ | ⟨c1, r1⟩
        · simp [hs] at h
        · rw [hs] at h hsk
          dsimp only at h
          simp only [List.length_cons] at hsk ⊢
          split_ifs at h
          · simp only [Option.some.injEq, Prod.mk.injEq] at h
            rw [← h.2]; omega
          · rcases hq : parseMembers (parseValue f (depth + 1)) (c1 :: r1).length (c1 :: r1)
              with _ | ⟨ws, r2⟩
            · rw [hq] at h; simp at h
            · rw [hq] at h
              simp only [Option.map_some', Option.some.injEq, Prod.mk.injEq] at h
              have := parseMembers_length _ (ih (depth + 1)) _ _ _ _ hq
              simp only [List.length_cons] at this
              rw [← h.2]; omega
      · rcases hq : parseStringBody rest.length rest with _ | ⟨x, r2⟩
        · simp [hq] at h
        · rw [hq] at h
          simp only [Option.map_some', Option.some.injEq, Prod.mk.injEq] at h
          have := parseStringBody_length _ _ _ _ hq
          simp only [List.length_cons]
          rw [← h.2]; omega
      · rcases hq : scanInt rest with _ | r2
        · simp [hq] at h
        · rw [hq] at h
          simp only [Option.map_some', Option.some.injEq, Prod.mk.injEq] at h
          have := scanInt_length _ _ hq
          simp only [List.length_cons]
          rw [← h.2]; omega
      · rcases hq : scanInt (c :: rest) with _ | r2
        · simp [hq] at h
        · rw [hq] at h
          simp only [Option.map_some', Option.some.injEq, Prod.mk.injEq] at h
          have := scanInt_length _ _ hq
          rw [← h.2]; exact this
      · split at h
        · simp only [Option.some.injEq, Prod.mk.injEq] at h
          rw [← h.2]; simp only [List.length_cons]; omega
        · simp at h
      · split at h
        · simp only [Option.some.injEq, Prod.mk.injEq] at h
          rw [← h.2]; simp only [List.length_cons]; omega
        · simp at h
      · split at h
        · simp only [Option.some.injEq, Prod.mk.injEq] at h
          rw [← h.2]; simp only [List.length_cons]; omega
        · simp at h

/-- The array scanner does not depend on its fuel, once the fuel covers the
input, nor on the value scanner beyond inputs of that length. -/
theorem parseElems_congr (pv pw : List Nat → Option (JVal × List Nat))
    (hpv : ∀ t v r, pv t = some (v, r) → r.length < t.length) (hnil : pv [] = none) :
    ∀ (n : Nat) (s : List Nat), s.length ≤ n →
      (∀ t, t.length ≤ s.length → pv t = pw t) →
      ∀ f g : Nat, s.length ≤ f → s.length ≤ g →
        parseElems pv f s = parseElems pw g s := by
  intro n
  induction n with
  | zero =>
    intro s hs hagree f g _ _
    have : s = [] := List.eq_nil_of_length_eq_zero (by omega)
    subst this
    have hnil2 : pw [] = none := by rw [← hagree [] (le_refl _)]; exact hnil
    cases f <;> cases g <;> simp [parseElems, hnil, hnil2]
  | succ n ih =>
    intro s hs hagree f g hf hg
    rcases s with _ | ⟨c, rest⟩
    · have hnil2 : pw [] = none := by rw [← hagree [] (le_refl _)]; exact hnil
      cases f <;> cases g <;> simp [parseElems, hnil, hnil2]
    · simp only [List.length_cons] at hs hf hg
      obtain ⟨f, rfl⟩ : ∃ k, f = k + 1 := ⟨f - 1, by omega⟩
      obtain ⟨g, rfl⟩ : ∃ k, g = k + 1 := ⟨g - 1, by omega⟩
      simp only [parseElems]
      rw [← hagree (c :: rest) (le_refl _)]
      rcases hp : pv (c :: rest) with _ | ⟨v, r0⟩
      · rfl
      · dsimp only
        have h0 := hpv _ _ _ hp
        have hsk := skipSpace_length r0
        simp only [List.length_cons] at h0
        rcases hsp : skipSpace r0 with _ | ⟨c1, r1⟩
        · rfl
        · rw [hsp] at hsk
          dsimp only
          simp only [List.length_cons] at hsk
          have hsk1 := skipSpace_length r1
          split_ifs
          · rw [ih (skipSpace r1) (by omega)
              (fun t ht => hagree t (by simp only [List.length_cons]; omega))
              f g (by omega) (by omega)]
          · rfl
          · rfl

/-- The object scanner does not depend on its fuel, once the fuel covers the
input, nor on the value scanner beyond inputs of that length. -/
theorem parseMembers_congr (pv pw : List Nat → Option (JVal × List Nat))
    (hpv : ∀ t v r, pv t = some (v, r) → r.length < t.length) :
    ∀ (n : Nat) (s : List Nat), s.length ≤ n →
      (∀ t, t.length ≤ s.length → pv t = pw t) →
      ∀ f g : Nat, s.length ≤ f → s.length ≤ g →
        parseMembers pv f s = parseMembers pw g s := by
  intro n
  induction n with
  | zero =>
    intro s hs hagree f g _ _
    have : s = [] := List.eq_nil_of_length_eq_zero (by omega)
    subst this
    cases f <;> cases g <;> simp [parseMembers]
  | succ n ih =>
    intro s hs hagree f g hf hg
    rcases s with _ | ⟨q, r0⟩
    · cases f <;> cases g <;> simp [parseMembers]
    · simp only [List.length_cons] at hs hf hg
      obtain ⟨f, rfl⟩ : ∃ k, f = k + 1 := ⟨f - 1, by omega⟩
      obtain ⟨g, rfl⟩ : ∃ k, g = k + 1 := ⟨g - 1, by omega⟩
      simp only [parseMembers]
      split_ifs
      · rcases hk : parseStringBody r0.length r0 with _ | ⟨k, r1⟩
        · rfl
        · dsimp only
          have h1 := parseStringBody_length _ _ _ _ hk
          have hsk1 := skipSpace_length r1
          rcases hs1 : skipSpace r1 with _ | ⟨c, r2⟩
          · rfl
          · rw [hs1] at hsk1
            dsimp only
            simp only [List.length_cons] at hsk1
            have hsk2 := skipSpace_length r2
            split_ifs
            · rw [← hagree (skipSpace r2) (by simp only [List.length_cons]; omega)]
              rcases hp : pv (skipSpace r2) with _ | ⟨v, r3⟩
              · rfl
              · dsimp only
                have h3 := hpv _ _ _ hp
                have hsk3 := skipSpace_length r3
                rcases hs3 : skipSpace r3 with _ | ⟨c1, r4⟩
                · rfl
                · rw [hs3] at hsk3
                  dsimp only
                  simp only [List.length_cons] at hsk3
                  have hsk4 := skipSpace_length r4
                  split_ifs
                  · rw [ih (skipSpace r4) (by omega)
                      (fun t ht => hagree t (by simp only [List.length_cons]; omega))
                      f g (by omega) (by omega)]
                  · rfl
                  · rfl
            · rfl
      · rfl

theorem parseValue_nil (f depth : Nat) : parseValue f depth [] = none := by
  cases f <;> rfl

/-- The value scanner does not depend on its fuel, once the fuel exceeds the
length of the input. -/
theorem parseValue_fuel :
    ∀ (n : Nat) (s : List Nat), s.length ≤ n → ∀ f g depth : Nat,
      s.length < f → s.length < g → parseValue f depth s = parseValue g depth s := by
  intro n
  induction n with
  | zero =>
    intro s hs f g depth _ _
    have : s = [] := List.eq_nil_of_length_eq_zero (by omega)
    subst this
    rw [parseValue_nil, parseValue_nil]
  | succ n ih =>
    intro s hs f g depth hf hg
    rcases s with _ | ⟨c, rest⟩
    · rw [parseValue_nil, parseValue_nil]
    · simp only [List.length_cons] at hs hf hg
      obtain ⟨f, rfl⟩ : ∃ k, f = k + 1 := ⟨f - 1, by omega⟩
      obtain ⟨g, rfl⟩ : ∃ k, g = k + 1 := ⟨g - 1, by omega⟩
      have hsk := skipSpace_length rest
      simp only [parseValue]
      split_ifs
      · rfl
      · rcases hsp : skipSpace rest with _ | ⟨c1, r1⟩
        · rfl
        · rw [hsp] at hsk
          dsimp only
          split_ifs
          · rfl
          · rw [parseElems_congr (parseValue f (depth + 1)) (parseValue g (depth + 1))
              (parseValue_length f (depth + 1)) (parseValue_nil f (depth + 1))
              (c1 :: r1).length (c1 :: r1) (le_refl _)
              (fun t ht => ih t (by omega) f g (depth + 1) (by omega) (by omega))
              (c1 :: r1).length (c1 :: r1).length (le_refl _) (le_refl _)]
      · rfl
      · rcases hsp : skipSpace rest with _ | ⟨c1, r1⟩
        · rfl
        · rw [hsp] at hsk
          dsimp only
          split_ifs
          · rfl
          · rw [parseMembers_congr (parseValue f (depth + 1)) (parseValue g (depth + 1))
              (parseValue_length f (depth + 1))
              (c1 :: r1).length (c1 :: r1) (le_refl _)
              (fun t ht => ih t (by omega) f g (depth + 1) (by omega) (by omega))
              (c1 :: r1).length (c1 :: r1).length (le_refl _) (le_refl _)]
      all_goals rfl

/-- The fuel that `parse` gives the value scanner is enough: more fuel gives
the same result. -/
theorem parse_fuel (data : List Nat) (f : Nat) (h : data.length < f) :
    parseValue f 0 (skipSpace data) = parseValue (data.length + 1) 0 (skipSpace data) :=
  parseValue_fuel data.length (skipSpace data) (skipSpace_length data) f (data.length + 1) 0
    (lt_of_le_of_lt (skipSpace_length data) h)
    (lt_of_le_of_lt (skipSpace_length data) (Nat.lt_succ_self _))

end json

/-! ## The claims -/

open api

/-- C1: converting a storage record `x` to a wire resource with `Proxy.With` on a
fresh resource and back with `Proxy.Model` keeps `enabled`, `kind`, `host` and
`port` exactly. -/
theorem With_Model_scalars (x : model.Proxy) :
    ((Proxy.zero.With x).Model).Enabled = x.Enabled
      ∧ ((Proxy.zero.With x).Model).Kind = x.Kind
      ∧ ((Proxy.zero.With x).Model).Host = x.Host
      ∧ ((Proxy.zero.With x).Model).Port = x.Port :=
  ⟨rfl, rfl, rfl, rfl⟩

/-- C2, as stated, fails: the one-element list holding the single byte 0xFF
(not valid UTF-8) comes back from `With (Model w)` as the three bytes of the
replacement rune U+FFFD. -/
theorem With_Model_excluded_counterexample :
    (Proxy.zero.With (Example.resource (some [[0xFF]])).Model).Excluded
        = some [[0xEF, 0xBF, 0xBD]]
      ∧ (Proxy.zero.With (Example.resource (some [[0xFF]])).Model).Excluded
        ≠ (Example.resource (some [[0xFF]])).Excluded := by
  decide

/-- C2, amended: for every wire resource whose `excluded` is a non-nil sequence
`s` of strings that are valid UTF-8 (the empty sequence included), `Proxy.With`
applied to `Proxy.Model` of it yields `excluded` equal to `s`: the same
elements in the same order. -/
theorem With_Model_excluded (w : Proxy) (s : List GoString)
    (hv : ∀ x ∈ s, utf8.ValidString x = true) :
    (Proxy.zero.With ({ w with Excluded := some s } : Proxy).Model).Excluded = some s := by
  simp only [Proxy.With, Proxy.Model, json.Unmarshal_Marshal s hv]

/-- C2, amended, at the lists `["a","b"]`, `[]` and a list with non-ASCII
text. -/
theorem With_Model_excluded_witness :
    ((∀ x ∈ [str "a", str "b"], utf8.ValidString x = true)
        ∧ (Proxy.zero.With ({ Example.body with Excluded := some [str "a", str "b"] } : Proxy).Model).Excluded
          = some [str "a", str "b"])
      ∧ (Proxy.zero.With ({ Example.body with Excluded := some [] } : Proxy).Model).Excluded
          = some []
      ∧ (Proxy.zero.With
            ({ Example.body with Excluded := some [[0xC3, 0xA9], str "<&>", [0xE2, 0x80, 0xA8]] } : Proxy).Model).Excluded
          = some [[0xC3, 0xA9], str "<&>", [0xE2, 0x80, 0xA8]] :=
  ⟨⟨by decide, With_Model_excluded Example.body [str "a", str "b"] (by decide)⟩,
    With_Model_excluded Example.body [] (by decide),
    With_Model_excluded Example.body [[0xC3, 0xA9], str "<&>", [0xE2, 0x80, 0xA8]] (by decide)⟩

/-- C3: for every storage record `m`, whatever its excluded blob holds,
`Proxy.With` on a fresh resource yields an `excluded` that is not nil; and for
every wire resource with `excluded = null`, `With (Model w)` has `excluded`
equal to the empty sequence. -/
theorem With_excluded_never_nil (m : model.Proxy) (w : Proxy) :
    (Proxy.zero.With m).Excluded ≠ none
      ∧ (Proxy.zero.With ({ w with Excluded := none } : Proxy).Model).Excluded = some [] := by
  constructor
  · simp only [Proxy.With]
    split <;> simp
  · rfl

/-- C4, as stated, fails: the blob `["a",1]` does not decode as an array of
strings (`json.Unmarshal` returns an `UnmarshalTypeError`), yet `Proxy.With` on
a fresh resource yields the two-element sequence `["a",""]`, not the empty
sequence. -/
theorem With_decode_failure_counterexample :
    (json.Unmarshal (some (str "[\"a\",1]")) none).2
        = some json.UnmarshalError.UnmarshalTypeError
      ∧ (Proxy.zero.With (Example.record (some (str "[\"a\",1]")))).Excluded
        = some [str "a", []]
      ∧ (Proxy.zero.With (Example.record (some (str "[\"a\",1]")))).Excluded ≠ some [] := by
  decide

/-- C4, amended: for every storage record whose excluded blob has a syntax
error, or holds a JSON value that is not an array, `Proxy.With` on a fresh
resource yields `excluded` equal to the empty sequence; when the blob is an
array, `With` yields one entry for each array element, the decoded string for
an element that is a string and the empty string for any other element. -/
theorem With_decode_failure (m : model.Proxy) :
    (json.parse (m.Excluded.getD []) = none → (Proxy.zero.With m).Excluded = some [])
      ∧ (∀ v, json.parse (m.Excluded.getD []) = some v → v.isArr = false →
          (Proxy.zero.With m).Excluded = some [])
      ∧ (∀ vs, json.parse (m.Excluded.getD []) = some (json.JVal.arr vs) →
          (Proxy.zero.With m).Excluded
            = some (vs.map (fun v => match v with
                | json.JVal.str s => s
                | _ => []))) := by
  refine ⟨?_, ?_, ?_⟩
  · intro h
    simp [Proxy.With, json.Unmarshal, h, Proxy.zero]
  · intro v h hv
    cases v <;> simp_all [Proxy.With, json.Unmarshal, Proxy.zero, json.JVal.isArr]
  · intro vs h
    simp only [Proxy.With, json.Unmarshal, h, Proxy.zero, Option.getD_none,
      json.storeElems_nil]

/-- C4, amended, at a blob cut short (syntax error), at a blob holding a JSON
string (not an array), and at the array `["a",1]`. -/
theorem With_decode_failure_witness :
    (Proxy.zero.With (Example.record (some (str "[\"a\",")))).Excluded = some []
      ∧ (Proxy.zero.With (Example.record (some (str "\"a\"")))).Excluded = some []
      ∧ (Proxy.zero.With (Example.record (some (str "[\"a\",1]")))).Excluded
          = some [str "a", []] :=
  ⟨(With_decode_failure (Example.record (some (str "[\"a\",")))).1 rfl,
    (With_decode_failure (Example.record (some (str "\"a\"")))).2.1 (json.JVal.str (str "a"))
      rfl rfl,
    (With_decode_failure (Example.record (some (str "[\"a\",1]")))).2.2
      [json.JVal.str (str "a"), json.JVal.num] rfl⟩

/-- C5: `Proxy.Model` leaves the excluded blob unset (nil) exactly when
`excluded` is nil.  When `excluded` is a non-nil sequence `s`, the empty one
included, the blob is set and is the JSON array encoding of `s`: a text between
brackets that the JSON scanner reads as the array of the strings of `s`, in
order, each coerced to valid UTF-8 (a string of valid UTF-8 is read back as it
is); for strings of printable ASCII other than the double quote, the
backslash, `&`, `<` and `>` it is the plain array text; and the empty sequence
encodes to the two bytes `[]`. -/
theorem Model_excluded_blob (w : Proxy) :
    (w.Model.Excluded = none ↔ w.Excluded = none)
      ∧ (∀ s : List GoString, ∃ blob : List Nat,
          ({ w with Excluded := some s } : Proxy).Model.Excluded = some blob
            ∧ blob.head? = some 0x5B
            ∧ blob.getLast? = some 0x5D
            ∧ json.parse blob
                = some (json.JVal.arr (s.map (fun x => json.JVal.str (json.coerce x)))))
      ∧ (∀ s : List GoString, (∀ x ∈ s, utf8.ValidString x = true) →
          ∃ blob : List Nat,
            ({ w with Excluded := some s } : Proxy).Model.Excluded = some blob
              ∧ json.parse blob = some (json.JVal.arr (s.map json.JVal.str)))
      ∧ (∀ s : List GoString,
          (∀ x ∈ s, ∀ b ∈ x, 0x20 ≤ b ∧ b < 0x80 ∧ b ≠ 0x22 ∧ b ≠ 0x5C ∧ b ≠ 0x26
            ∧ b ≠ 0x3C ∧ b ≠ 0x3E) →
          ({ w with Excluded := some s } : Proxy).Model.Excluded = some (json.arrayText s))
      ∧ ({ w with Excluded := some [] } : Proxy).Model.Excluded = some (str "[]") := by
  refine ⟨?_, ?_, ?_, ?_, rfl⟩
  · cases h : w.Excluded <;> simp [Proxy.Model, h]
  · intro s
    refine ⟨json.Marshal (some s), rfl, rfl, ?_, json.parse_Marshal_coerce s⟩
    show (0x5B :: (json.encodeElems s ++ [0x5D])).getLast? = some 0x5D
    rw [← List.cons_append, List.getLast?_concat]
  · intro s hv
    exact ⟨json.Marshal (some s), rfl, json.parse_Marshal s hv⟩
  · intro s hs
    have hsafe : ∀ x ∈ s, ∀ b ∈ x, json.htmlSafeSet b = true := by
      intro x hx b hb
      have := hs x hx b hb
      simp only [json.htmlSafeSet, decide_eq_true_eq]
      omega
    show some (json.Marshal (some s)) = some (json.arrayText s)
    rw [json.Marshal_arrayText s hsafe]

/-- C5 at the list `["a","b"]`, whose blob is the nine bytes `["a","b"]`, and
at a list with a backspace, a `<` and an invalid byte, which are written as
escapes. -/
theorem Model_excluded_blob_witness :
    (∀ x ∈ [str "a", str "b"], ∀ b ∈ x, 0x20 ≤ b ∧ b < 0x80 ∧ b ≠ 0x22 ∧ b ≠ 0x5C
        ∧ b ≠ 0x26 ∧ b ≠ 0x3C ∧ b ≠ 0x3E)
      ∧ ({ Example.body with Excluded := some [str "a", str "b"] } : Proxy).Model.Excluded
          = some (json.arrayText [str "a", str "b"])
      ∧ json.arrayText [str "a", str "b"] = str "[\"a\",\"b\"]"
      ∧ ({ Example.body with Excluded := some [str "a", str "b"] } : Proxy).Model.Excluded
          = some [0x5B, 0x22, 0x61, 0x22, 0x2C, 0x22, 0x62, 0x22, 0x5D]
      ∧ ({ Example.body with Excluded := some [[0x08], str "a<b", [0xFF]] } : Proxy).Model.Excluded
          = some (str "[\"\\b\",\"a\\u003cb\",\"\\ufffd\"]") :=
  ⟨by decide,
    (Model_excluded_blob Example.body).2.2.2.1 [str "a", str "b"] (by decide),
    by decide, by decide, by decide⟩

/-- C6: for every request body whose `kind` is neither `http` nor `https`
(an absent or empty kind included), `ProxyHandler.Create` ends with a
validation error and status 400 before any store call: the store, its call log
included, is as it was, and nothing is rendered. -/
theorem Create_rejects_kind (db : DB) (ctx : Context) (r : Proxy)
    (h1 : r.Kind ≠ str "http") (h2 : r.Kind ≠ str "https") :
    (ProxyHandler.Create db ctx (Payload.decoded r)).1 = db
      ∧ (ProxyHandler.Create db ctx (Payload.decoded r)).2.Body = ctx.Body
      ∧ (ProxyHandler.Create db ctx (Payload.decoded r)).2.Status = some 400
      ∧ (ProxyHandler.Create db ctx (Payload.decoded r)).2.Errors
          = ctx.Errors ++ [Error.Validation] := by
  have hk : r.kindAllowed = false := by simp [Proxy.kindAllowed, h1, h2]
  simp [ProxyHandler.Create, api.Bind, hk, Context.Error, Context.SetStatus]

/-- C6 at a body without a kind, on the example store. -/
theorem Create_rejects_kind_witness :
    ((Example.resource none).Kind ≠ str "http" ∧ (Example.resource none).Kind ≠ str "https")
      ∧ (ProxyHandler.Create Example.db Example.ctx
            (Payload.decoded (Example.resource none))).1 = Example.db
      ∧ (ProxyHandler.Create Example.db Example.ctx
            (Payload.decoded (Example.resource none))).2.Body = Example.ctx.Body
      ∧ (ProxyHandler.Create Example.db Example.ctx
            (Payload.decoded (Example.resource none))).2.Status = some 400
      ∧ (ProxyHandler.Create Example.db Example.ctx
            (Payload.decoded (Example.resource none))).2.Errors
          = Example.ctx.Errors ++ [Error.Validation] :=
  ⟨by decide,
    Create_rejects_kind Example.db Example.ctx (Example.resource none) (by decide) (by decide)⟩

/-- C7: for every path id `p` and every valid request body, `ProxyHandler.Update`
issues one store call, an update whose record has id `p` and whose updater is
the authenticated caller; the id carried in the body changes nothing. -/
theorem Update_record (db : DB) (ctx : Context) (p : Nat) (r : Proxy)
    (h : r.kindAllowed = true) :
    ∃ m : model.Proxy,
      (ProxyHandler.Update db ctx p (Payload.decoded r)).1.Calls = db.Calls ++ [Call.Updates m]
        ∧ m.Model.ID = p
        ∧ m.Model.UpdateUser = ctx.User
        ∧ ∀ bodyID : Nat,
            ProxyHandler.Update db ctx p
                (Payload.decoded { r with Resource := { r.Resource with ID := bodyID } })
              = ProxyHandler.Update db ctx p (Payload.decoded r) := by
  refine ⟨{ r.Model with Model := { ID := p, CreateUser := [], UpdateUser := ctx.User } },
    ?_, ?_, ?_, ?_⟩
  · simp [ProxyHandler.Update, api.Bind, h, DB.Updates, Proxy.Model]
  · rfl
  · rfl
  · intro bodyID
    have h2 : ({ r with Resource := { r.Resource with ID := bodyID } } : Proxy).kindAllowed
        = true := h
    simp [ProxyHandler.Update, api.Bind, h, h2, DB.Updates, Proxy.Model]

/-- C7 at path id 7 with the example body, which carries the id 8. -/
theorem Update_record_witness :
    Example.body.kindAllowed = true
      ∧ ∃ m : model.Proxy,
          (ProxyHandler.Update Example.db Example.ctx 7 (Payload.decoded Example.body)).1.Calls
              = Example.db.Calls ++ [Call.Updates m]
            ∧ m.Model.ID = 7
            ∧ m.Model.UpdateUser = Example.ctx.User
            ∧ ∀ bodyID : Nat,
                ProxyHandler.Update Example.db Example.ctx 7
                    (Payload.decoded
                      { Example.body with
                        Resource := { Example.body.Resource with ID := bodyID } })
                  = ProxyHandler.Update Example.db Example.ctx 7 (Payload.decoded Example.body) :=
  ⟨by decide, Update_record Example.db Example.ctx 7 Example.body (by decide)⟩

/-- C8: for every store, every id and every valid request body,
`ProxyHandler.Update` answers 204 and changes the table row by row: a row with
that id gets `enabled`, `kind`, `host`, `port` and the excluded blob of the
body and keeps its identity reference and its id, whatever identity the body
carries; every other row is unchanged. -/
theorem Update_row (db : DB) (ctx : Context) (id : Nat) (r : Proxy)
    (h : r.kindAllowed = true) :
    (ProxyHandler.Update db ctx id (Payload.decoded r)).2.Status = some 204
      ∧ List.Forall₂
          (fun old new : model.Proxy =>
            if old.Model.ID = id then
              new.Enabled = r.Enabled ∧ new.Kind = r.Kind ∧ new.Host = r.Host
                ∧ new.Port = r.Port
                ∧ new.Excluded = r.Excluded.map (fun xs => json.Marshal (some xs))
                ∧ new.IdentityID = old.IdentityID
                ∧ new.Identity = old.Identity
                ∧ new.Model.ID = old.Model.ID
            else new = old)
          db.Proxies (ProxyHandler.Update db ctx id (Payload.decoded r)).1.Proxies := by
  constructor
  · simp [ProxyHandler.Update, api.Bind, h, DB.Updates, Context.SetStatus]
  · simp only [ProxyHandler.Update, api.Bind, h, DB.Updates, if_true]
    rw [List.forall₂_map_right_iff, List.forall₂_same]
    intro row _
    by_cases hr : row.Model.ID = id
    · simp only [hr, if_true, Proxy.Model, and_true, true_and]
      cases r.Excluded <;> simp
    · simp [hr]

/-- C8 at the example of the claim: id 7 and the body
`{enabled:false, kind:"https", host:"h", port:443, excluded:["x"]}`, which
also carries a reference to identity 4; row 7 keeps its reference to identity
3 and row 8 is unchanged. -/
theorem Update_row_witness :
    Example.body.kindAllowed = true
      ∧ ((ProxyHandler.Update Example.db Example.ctx 7 (Payload.decoded Example.body)).2.Status
            = some 204
          ∧ List.Forall₂
              (fun old new : model.Proxy =>
                if old.Model.ID = 7 then
                  new.Enabled = Example.body.Enabled ∧ new.Kind = Example.body.Kind
                    ∧ new.Host = Example.body.Host
                    ∧ new.Port = Example.body.Port
                    ∧ new.Excluded = Example.body.Excluded.map (fun xs => json.Marshal (some xs))
                    ∧ new.IdentityID = old.IdentityID
                    ∧ new.Identity = old.Identity
                    ∧ new.Model.ID = old.Model.ID
                else new = old)
              Example.db.Proxies
              (ProxyHandler.Update Example.db Example.ctx 7
                (Payload.decoded Example.body)).1.Proxies)
      ∧ (ProxyHandler.Update Example.db Example.ctx 7 (Payload.decoded Example.body)).1.Proxies
          = [ { Model := { ID := 7, CreateUser := str "admin", UpdateUser := str "alice" }
                Enabled := false, Kind := str "https", Host := str "h", Port := 443
                Excluded := some (str "[\"x\"]"), IdentityID := some 3, Identity := none },
              { Model := { ID := 8, CreateUser := str "admin", UpdateUser := [] }
                Enabled := true, Kind := str "https", Host := str "other", Port := 8443
                Excluded := none, IdentityID := none, Identity := none } ] :=
  ⟨by decide, Update_row Example.db Example.ctx 7 Example.body (by decide), by decide⟩

/-- C9: for every store and id: when no row has the id, `ProxyHandler.Delete`
reports a Not-Found error, issues no delete (the only store call is the load)
and leaves the rows as they were; when a row has the id, `Delete` removes the
rows with that id and no other, answers 204, and a `Get` on the same id
afterwards reports Not-Found. -/
theorem Delete_spec (db : DB) (ctx : Context) (id : Nat) :
    ((∀ row ∈ db.Proxies, row.Model.ID ≠ id) →
        ProxyHandler.Delete db ctx id
          = ({ db with Calls := db.Calls ++ [Call.First id] }, ctx.Error Error.NotFound))
      ∧ ((∃ row ∈ db.Proxies, row.Model.ID = id) →
          (ProxyHandler.Delete db ctx id).1.Proxies
              = db.Proxies.filter (fun row => decide (row.Model.ID ≠ id))
            ∧ (ProxyHandler.Delete db ctx id).1.Calls
              = db.Calls ++ [Call.First id, Call.Delete id]
            ∧ (ProxyHandler.Delete db ctx id).2 = ctx.SetStatus 204
            ∧ ∀ ctx2 : Context,
                (ProxyHandler.Get (ProxyHandler.Delete db ctx id).1 ctx2 id).2
                  = ctx2.Error Error.NotFound) := by
  constructor
  · intro hno
    have hf : db.Proxies.find? (fun row => decide (row.Model.ID = id)) = none := by
      rw [List.find?_eq_none]
      intro row hrow
      simpa using hno row hrow
    simp [ProxyHandler.Delete, DB.First, hf]
  · rintro ⟨row, hrow, hid⟩
    obtain ⟨found, hfound⟩ : ∃ found, db.Proxies.find? (fun row => decide (row.Model.ID = id))
        = some found := by
      cases hf : db.Proxies.find? (fun row => decide (row.Model.ID = id)) with
      | none =>
        rw [List.find?_eq_none] at hf
        exact absurd hid (by simpa using hf row hrow)
      | some found => exact ⟨found, rfl⟩
    have hfid : found.Model.ID = id := by
      simpa using List.find?_some hfound
    have hfilter : (db.Proxies.filter
          (fun row => !decide (row.Model.ID = found.Model.ID ∧ row.Model.ID = id)))
        = db.Proxies.filter (fun row => decide (row.Model.ID ≠ id)) := by
      apply List.filter_congr
      intro x _
      simp [hfid]
    have hgone : (db.Proxies.filter (fun row => decide (row.Model.ID ≠ id))).find?
        (fun row => decide (row.Model.ID = id)) = none := by
      rw [List.find?_eq_none]
      intro x hx
      simpa using (List.mem_filter.mp hx).2
    have hdel : ProxyHandler.Delete db ctx id
        = ({ Proxies := db.Proxies.filter (fun row => decide (row.Model.ID ≠ id))
             Identities := db.Identities
             Calls := db.Calls ++ [Call.First id, Call.Delete id] }, ctx.SetStatus 204) := by
      simp only [ProxyHandler.Delete, DB.First, hfound, DB.Delete, Bool.false_eq_true,
        if_false, hfilter, List.append_assoc, List.singleton_append]
    rw [hdel]
    refine ⟨rfl, rfl, rfl, ?_⟩
    intro ctx2
    simp only [ProxyHandler.Get, DB.First, hgone]

/-- C9 on the example store: id 9 has no row, id 7 has one. -/
theorem Delete_spec_witness :
    (ProxyHandler.Delete Example.db Example.ctx 9
        = ({ Example.db with Calls := Example.db.Calls ++ [Call.First 9] },
            Example.ctx.Error Error.NotFound))
      ∧ ((ProxyHandler.Delete Example.db Example.ctx 7).1.Proxies
              = Example.db.Proxies.filter (fun row => decide (row.Model.ID ≠ 7))
          ∧ (ProxyHandler.Delete Example.db Example.ctx 7).1.Calls
              = Example.db.Calls ++ [Call.First 7, Call.Delete 7]
          ∧ (ProxyHandler.Delete Example.db Example.ctx 7).2 = Example.ctx.SetStatus 204
          ∧ ∀ ctx2 : Context,
              (ProxyHandler.Get (ProxyHandler.Delete Example.db Example.ctx 7).1 ctx2 7).2
                = ctx2.Error Error.NotFound) :=
  ⟨(Delete_spec Example.db Example.ctx 9).1 (by decide),
    (Delete_spec Example.db Example.ctx 7).2 (by decide)⟩

/-- C10, as stated, fails: two valid bodies that differ only in their id (5 and
9) make `ProxyHandler.Create` hand two different records to the store, one
with id 5 and one with id 9. -/
theorem Create_record_id_counterexample :
    (ProxyHandler.Create Example.empty Example.ctx
        (Payload.decoded (Example.bodyWithID 5))).1.Calls
      = [Call.Create
          { Model := { ID := 5, CreateUser := str "alice", UpdateUser := [] }
            Enabled := false, Kind := str "https", Host := str "h", Port := 443
            Excluded := some (str "[\"x\"]"), IdentityID := some 4, Identity := none }]
    ∧ (ProxyHandler.Create Example.empty Example.ctx
        (Payload.decoded (Example.bodyWithID 9))).1.Calls
      = [Call.Create
          { Model := { ID := 9, CreateUser := str "alice", UpdateUser := [] }
            Enabled := false, Kind := str "https", Host := str "h", Port := 443
            Excluded := some (str "[\"x\"]"), IdentityID := some 4, Identity := none }]
    ∧ (ProxyHandler.Create Example.empty Example.ctx
        (Payload.decoded (Example.bodyWithID 5))).1.Calls
      ≠ (ProxyHandler.Create Example.empty Example.ctx
        (Payload.decoded (Example.bodyWithID 9))).1.Calls := by
  decide

/-- C10, amended: for every valid request body, `ProxyHandler.Create` issues
one store call, a create whose record carries the id of the body and the
authenticated caller as creator; two bodies that differ only in id give
records that differ only in id. -/
theorem Create_record (db : DB) (ctx : Context) (r : Proxy) (h : r.kindAllowed = true) :
    ∃ m : model.Proxy,
      (ProxyHandler.Create db ctx (Payload.decoded r)).1.Calls = db.Calls ++ [Call.Create m]
        ∧ m.Model.ID = r.Resource.ID
        ∧ m.Model.CreateUser = ctx.User
        ∧ ∀ bodyID : Nat,
            (ProxyHandler.Create db ctx
                (Payload.decoded { r with Resource := { r.Resource with ID := bodyID } })).1.Calls
              = db.Calls ++ [Call.Create { m with Model := { m.Model with ID := bodyID } }] := by
  have key : ∀ q : Proxy, q.kindAllowed = true →
      (ProxyHandler.Create db ctx (Payload.decoded q)).1.Calls
        = db.Calls ++ [Call.Create
            { q.Model with
              Model := { ID := q.Resource.ID, CreateUser := ctx.User, UpdateUser := [] } }] := by
    intro q hq
    simp only [ProxyHandler.Create, api.Bind, hq, if_true, DB.Create, Proxy.Model]
    split_ifs <;> rfl
  refine ⟨{ r.Model with
      Model := { ID := r.Resource.ID, CreateUser := ctx.User, UpdateUser := [] } },
    key r h, rfl, rfl, ?_⟩
  intro bodyID
  exact key _ h

/-- C10, amended, at the example body on the example store. -/
theorem Create_record_witness :
    Example.body.kindAllowed = true
      ∧ ∃ m : model.Proxy,
          (ProxyHandler.Create Example.db Example.ctx (Payload.decoded Example.body)).1.Calls
              = Example.db.Calls ++ [Call.Create m]
            ∧ m.Model.ID = Example.body.Resource.ID
            ∧ m.Model.CreateUser = Example.ctx.User
            ∧ ∀ bodyID : Nat,
                (ProxyHandler.Create Example.db Example.ctx
                    (Payload.decoded
                      { Example.body with
                        Resource := { Example.body.Resource with ID := bodyID } })).1.Calls
                  = Example.db.Calls
                      ++ [Call.Create { m with Model := { m.Model with ID := bodyID } }] :=
  ⟨by decide, Create_record Example.db Example.ctx Example.body (by decide)⟩
